import Mathlib

/-!
Verification of the layout engine of `shadcn-network-graph`.

The engine consists of
* a Barnes-Hut quadtree (`qtInsert`, `createQTNode`) used by the force
  simulation (`network-graph-simulation.ts`),
* the force simulation loop (`runSimulation`),
* static layouts (`computeTreeLayout`, `computeRadialLayout`, `buildLayers`
  in `network-graph-layouts.ts`),
* geometry helpers (`getNodeExitPoint`).

JavaScript numbers are modelled by `ℚ` (exact rational arithmetic, the usual
idealisation of IEEE doubles) except where a claim is specifically about the
special values `NaN`/`Infinity`; for those we use the `JSNum` model below,
which carries the IEEE special values explicitly.  `Math.sqrt` has no exact
rational counterpart, so where a simulated quantity flows through
`Math.sqrt` the embedding takes the square-root function as an explicit
parameter (`sqrtFn`); theorems either hold for every such function or
instantiate it consistently.
-/

namespace NetworkGraph

/-! ### Barnes-Hut quadtree (`simulation.ts`, `QTNode`, `createQTNode`, `qtInsert`)

`QTNode` in the source is a record with bounding box `x0 y0 x1 y1`, running
aggregate `cx cy mass`, a leaf body index `body` (`-1` when not a leaf) and
`children`, which is either `null` (never subdivided) or an array of four
slots each holding `null` or a child node.  The two kinds of `null` are
distinct in the source and are modelled by the two auxiliary inductives. -/

mutual

inductive QT : Type where
  | mk (x0 y0 x1 y1 cx cy mass : ℚ) (body : ℤ) (children : QChildren) : QT

inductive QChildren : Type where
  | nullC : QChildren
  | quad (c0 c1 c2 c3 : QSlot) : QChildren

inductive QSlot : Type where
  | nullS : QSlot
  | node (t : QT) : QSlot

end

namespace QT

def x0 : QT → ℚ | .mk v _ _ _ _ _ _ _ _ => v
def y0 : QT → ℚ | .mk _ v _ _ _ _ _ _ _ => v
def x1 : QT → ℚ | .mk _ _ v _ _ _ _ _ _ => v
def y1 : QT → ℚ | .mk _ _ _ v _ _ _ _ _ => v
def cx : QT → ℚ | .mk _ _ _ _ v _ _ _ _ => v
def cy : QT → ℚ | .mk _ _ _ _ _ v _ _ _ => v
def mass : QT → ℚ | .mk _ _ _ _ _ _ v _ _ => v
def body : QT → ℤ | .mk _ _ _ _ _ _ _ v _ => v
def children : QT → QChildren | .mk _ _ _ _ _ _ _ _ v => v

end QT

def getSlot : QChildren → ℕ → QSlot
  | .nullC, _ => .nullS
  | .quad c0 _ _ _, 0 => c0
  | .quad _ c1 _ _, 1 => c1
  | .quad _ _ c2 _, 2 => c2
  | .quad _ _ _ c3, _ => c3

def setSlot : QChildren → ℕ → QSlot → QChildren
  | .nullC, _, _ => .nullC
  | .quad _ c1 c2 c3, 0, s => .quad s c1 c2 c3
  | .quad c0 _ c2 c3, 1, s => .quad c0 s c2 c3
  | .quad c0 c1 _ c3, 2, s => .quad c0 c1 s c3
  | .quad c0 c1 c2 _, _, s => .quad c0 c1 c2 s

/-- Embedding of `createQTNode(x0, y0, x1, y1)` from the source. -/
def createQTNode (x0 y0 x1 y1 : ℚ) : QT :=
  .mk x0 y0 x1 y1 0 0 0 (-1) .nullC

/-- Embedding of `qtInsert(node, idx, x, y)` from the source, with an explicit
recursion budget `fuel` standing for the JS call stack: `none` models the
stack overflow the unbounded source recursion would hit. -/
def qtInsert : ℕ → QT → ℤ → ℚ → ℚ → Option QT
  | 0, _, _, _, _ => none
  | fuel + 1, .mk x0 y0 x1 y1 cx cy mass body children, idx, x, y =>
    let midX := (x0 + x1) / 2
    let midY := (y0 + y1) / 2
    -- Empty node: place the body here.
    if mass = 0 then
      some (.mk x0 y0 x1 y1 x y 1 idx children)
    else
      -- If leaf, subdivide and re-insert the existing body through a full
      -- recursive `qtInsert` on this same node (as the source does).
      let t1? : Option QT :=
        match children with
        | .nullC =>
            qtInsert fuel
              (.mk x0 y0 x1 y1 cx cy mass (-1) (.quad .nullS .nullS .nullS .nullS))
              body cx cy
        | .quad c0 c1 c2 c3 =>
            some (.mk x0 y0 x1 y1 cx cy mass body (.quad c0 c1 c2 c3))
      match t1? with
      | none => none
      | some t1 =>
        -- Insert the new body into the correct quadrant.
        let quadrant := (if x > midX then 1 else 0) + (if y > midY then 2 else 0)
        let child : QT :=
          match getSlot t1.children quadrant with
          | .nullS =>
              let qx0 := if quadrant &&& 1 = 1 then midX else x0
              let qy0 := if quadrant &&& 2 = 2 then midY else y0
              let qx1 := if quadrant &&& 1 = 1 then x1 else midX
              let qy1 := if quadrant &&& 2 = 2 then y1 else midY
              createQTNode qx0 qy0 qx1 qy1
          | .node c => c
        match qtInsert fuel child idx x y with
        | none => none
        | some child2 =>
          -- Update center of mass.
          let totalMass := t1.mass + 1
          some (.mk t1.x0 t1.y0 t1.x1 t1.y1
            ((t1.cx * t1.mass + x) / totalMass)
            ((t1.cy * t1.mass + y) / totalMass)
            totalMass t1.body (setSlot t1.children quadrant (.node child2)))

/-- Fold of `qtInsert` over an indexed body list: the tree-build loop of
`applyRepulsionBarnesHut`. -/
def qtBuild (fuel : ℕ) (root : QT) (bodies : List (ℚ × ℚ)) : Option QT :=
  (bodies.enum).foldl
    (fun acc p =>
      match acc with
      | none => none
      | some t => qtInsert fuel t (p.1 : ℤ) p.2.1 p.2.2)
    (some root)

/-- Claim C1 (code_bug evidence): inserting the two bodies `(0,0)` and
`(2,2)` into a fresh quadtree over the padded box `[-1,3] × [-1,3]` — exactly
what the per-step tree build does for those two positions — yields a root
with `mass = 3` (the claim requires `mass = 2`, the number of inserted
bodies) and `cx = cy = 2/3` (the claim requires the arithmetic mean `1`).
The subdividing branch of `qtInsert` re-inserts the surviving body through a
full recursive `qtInsert` on the same node, which runs the incremental
center-of-mass update a second time. -/
theorem qtInsert_mass_not_body_count :
    (qtBuild 10 (createQTNode (-1) (-1) 3 3) [(0, 0), (2, 2)]).map
        (fun t => (t.mass, t.cx, t.cy)) = some (3, 2 / 3, 2 / 3) := by
  with_unfolding_all decide

/-! ### JavaScript number model with IEEE special values

Claim C2 is about `NaN`/`Infinity` propagation, so for `getNodeExitPoint` we
embed JS numbers as exact rationals extended with `inf`, `ninf` and `nan`,
and give the arithmetic used by the function its IEEE-754 semantics on those
special values (finite arithmetic is exact, the usual idealisation). -/

inductive JSNum : Type where
  | num (q : ℚ)
  | inf
  | ninf
  | nan
deriving DecidableEq, Repr

namespace JSNum

def add : JSNum → JSNum → JSNum
  | nan, _ => nan
  | _, nan => nan
  | inf, ninf => nan
  | ninf, inf => nan
  | inf, _ => inf
  | _, inf => inf
  | ninf, _ => ninf
  | _, ninf => ninf
  | num a, num b => num (a + b)

def sub : JSNum → JSNum → JSNum
  | nan, _ => nan
  | _, nan => nan
  | inf, inf => nan
  | ninf, ninf => nan
  | inf, _ => inf
  | ninf, _ => ninf
  | num _, inf => ninf
  | num _, ninf => inf
  | num a, num b => num (a - b)

def mul : JSNum → JSNum → JSNum
  | nan, _ => nan
  | _, nan => nan
  | inf, inf => inf
  | inf, ninf => ninf
  | ninf, inf => ninf
  | ninf, ninf => inf
  | inf, num b => if b = 0 then nan else if 0 < b then inf else ninf
  | num a, inf => if a = 0 then nan else if 0 < a then inf else ninf
  | ninf, num b => if b = 0 then nan else if 0 < b then ninf else inf
  | num a, ninf => if a = 0 then nan else if 0 < a then ninf else inf
  | num a, num b => num (a * b)

def div : JSNum → JSNum → JSNum
  | nan, _ => nan
  | _, nan => nan
  | inf, inf => nan
  | inf, ninf => nan
  | ninf, inf => nan
  | ninf, ninf => nan
  | inf, num b => if 0 ≤ b then inf else ninf
  | ninf, num b => if 0 ≤ b then ninf else inf
  | num _, inf => num 0
  | num _, ninf => num 0
  | num a, num b =>
      if b = 0 then (if a = 0 then nan else if 0 < a then inf else ninf)
      else num (a / b)

/-- Model of `Math.sqrt`.  `sqrt 0 = 0`, `sqrt` of a negative number is
`NaN` and `sqrt Infinity = Infinity` exactly as in IEEE-754; for positive
rationals the (in general irrational) result is supplied by the `approx`
parameter. -/
def sqrt (approx : ℚ → ℚ) : JSNum → JSNum
  | nan => nan
  | inf => inf
  | ninf => nan
  | num q => if q < 0 then nan else if q = 0 then num 0 else num (approx q)

/-- Model of `Math.abs`. -/
def abs : JSNum → JSNum
  | nan => nan
  | inf => inf
  | ninf => inf
  | num q => num |q|

/-- Model of the strict JS comparison `a > b` (false whenever `NaN` is
involved). -/
def gt : JSNum → JSNum → Bool
  | nan, _ => false
  | _, nan => false
  | inf, inf => false
  | inf, _ => true
  | _, inf => false
  | ninf, ninf => false
  | ninf, _ => false
  | _, ninf => true
  | num a, num b => decide (b < a)

/-- Model of `Math.min` (returns `NaN` if an argument is `NaN`). -/
def min : JSNum → JSNum → JSNum
  | nan, _ => nan
  | _, nan => nan
  | ninf, _ => ninf
  | _, ninf => ninf
  | inf, b => b
  | a, inf => a
  | num a, num b => num (Min.min a b)

/-- Model of the `x || fallback` idiom: a JS number is falsy exactly when it
is `0` (or `-0`) or `NaN`. -/
def orElse : JSNum → JSNum → JSNum
  | num a, b => if a = 0 then b else num a
  | nan, b => b
  | a, _ => a

/-- A JS number is finite when it is neither `NaN` nor an infinity. -/
def isFinite : JSNum → Bool
  | num _ => true
  | _ => false

end JSNum

structure PointJ where
  x : JSNum
  y : JSNum
deriving DecidableEq, Repr

structure NodeBoundsJ where
  width : JSNum
  height : JSNum
deriving DecidableEq, Repr

/-- Embedding of `getNodeExitPoint(source, target, bounds)` from the source
(identical in `simulation.ts` and `network-graph-simulation.ts`), over the
JS number model.  `approx` supplies `Math.sqrt` on positive rationals. -/
def getNodeExitPoint (approx : ℚ → ℚ) (source target : PointJ)
    (bounds : NodeBoundsJ) : PointJ :=
  let dx := JSNum.sub target.x source.x
  let dy := JSNum.sub target.y source.y
  let dist := JSNum.orElse
    (JSNum.sqrt approx (JSNum.add (JSNum.mul dx dx) (JSNum.mul dy dy)))
    (JSNum.num 1)
  let ux := JSNum.div dx dist
  let uy := JSNum.div dy dist
  let hw := JSNum.div bounds.width (JSNum.num 2)
  let hh := JSNum.div bounds.height (JSNum.num 2)
  let tX := if JSNum.gt (JSNum.abs ux) (JSNum.num 0)
    then JSNum.div hw (JSNum.abs ux) else JSNum.inf
  let tY := if JSNum.gt (JSNum.abs uy) (JSNum.num 0)
    then JSNum.div hh (JSNum.abs uy) else JSNum.inf
  let t := JSNum.min tX tY
  ⟨JSNum.add source.x (JSNum.mul ux t),
   JSNum.add source.y (JSNum.mul uy t)⟩

/-- Claim C2 (code_bug evidence): with `source = target = (50, 50)` and
bounds `100 × 50` — positive width and height — `getNodeExitPoint` returns
`(NaN, NaN)`, not a finite point, whatever `Math.sqrt` does on positive
inputs.  The `dist = 1` fallback leaves `ux = uy = 0`, so both parametric
intersections are `Infinity`, `t = Infinity`, and `0 * Infinity = NaN`
flows into both returned coordinates. -/
theorem getNodeExitPoint_zero_distance_nan (approx : ℚ → ℚ) :
    getNodeExitPoint approx ⟨.num 50, .num 50⟩ ⟨.num 50, .num 50⟩
        ⟨.num 100, .num 50⟩ = ⟨.nan, .nan⟩ := by
  with_unfolding_all rfl

/-! ### Static layouts (`network-graph-layouts.ts`)

`buildLayers` builds a children adjacency map and in-degree count, picks the
root (first node with in-degree 0, else `nodes[0]`), BFS-assigns depths
(first assignment wins), pushes every unreached node into one trailing
layer at `maxReachedDepth + 1`, and groups node ids by depth in input
order.  The JS `Map`/`Record` objects are embedded as association lists
with their JS access semantics (`lookup` = first matching entry, since
entries are only ever inserted when the key is absent; position records use
last-write-wins lookup). -/

structure LayoutNode where
  id : String
deriving DecidableEq, Repr

structure LayoutEdge where
  source : String
  target : String
deriving DecidableEq, Repr

/-- Adjacency: `children.get(id)` after the edge loop.  The map is seeded
with one empty list per node id, and `children.get(e.source)?.push` appends
only to lists of known source ids, in edge order. -/
def childrenOf (nodes : List LayoutNode) (edges : List LayoutEdge)
    (id : String) : List String :=
  if (nodes.map LayoutNode.id).contains id then
    (edges.filter (fun e => e.source == id)).map LayoutEdge.target
  else []

/-- In-degree of a node id: `incoming.get(id)` after the edge loop. -/
def inDegree (edges : List LayoutEdge) (id : String) : ℕ :=
  (edges.filter (fun e => e.target == id)).length

/-- Root selection: first node with in-degree 0, else `nodes[0]`. -/
def rootOf (nodes : List LayoutNode) (edges : List LayoutEdge) :
    Option String :=
  match nodes.filter (fun n => inDegree edges n.id == 0) with
  | r :: _ => some r.id
  | [] => nodes.head?.map LayoutNode.id

/-- One pass of the inner `for (const child of children.get(id))` loop:
assign depth `d + 1` to each not-yet-assigned child and enqueue it. -/
def bfsChildren (cs : List String) (d : ℕ)
    (acc : List (String × ℕ) × List String) :
    List (String × ℕ) × List String :=
  cs.foldl
    (fun acc c =>
      if (acc.1.lookup c).isNone then (acc.1 ++ [(c, d + 1)], acc.2 ++ [c])
      else acc)
    acc

/-- The BFS `while (queue.length > 0)` loop.  `fuel` bounds the number of
iterations; `buildLayers` supplies a provably sufficient amount (the loop
runs at most once per depth-map insertion), so the returned queue is empty
— the modelled loop genuinely drains, see `bfsLoop_drains`. -/
def bfsLoop (children : String → List String) :
    ℕ → List (String × ℕ) → List String → List (String × ℕ) × List String
  | 0, dm, q => (dm, q)
  | _ + 1, dm, [] => (dm, [])
  | fuel + 1, dm, id :: rest =>
      let d := (dm.lookup id).getD 0
      let s := bfsChildren (children id) d (dm, [])
      bfsLoop children fuel s.1 (rest ++ s.2)

/-- Fuel handed to `bfsLoop`: enough for one iteration per possible depth
insertion (root plus one per edge target), with margin. -/
def bfsFuel (edges : List LayoutEdge) : ℕ :=
  2 * edges.length + 2

/-- Depth map straight after the BFS (before the orphan pass). -/
def bfsDepths (nodes : List LayoutNode) (edges : List LayoutEdge) :
    List (String × ℕ) :=
  match rootOf nodes edges with
  | none => []
  | some r => (bfsLoop (childrenOf nodes edges) (bfsFuel edges) [(r, 0)] [r]).1

/-- Running maximum over the depth-map values (`for d of depth.values()`),
starting from 0. -/
def maxReached (dm : List (String × ℕ)) : ℕ :=
  dm.foldl (fun m p => max m p.2) 0

/-- Orphan pass: every node id without a depth is appended at
`maxReached + 1`, in node order (first occurrence wins for duplicates). -/
def depthsAll (nodes : List LayoutNode) (edges : List LayoutEdge) :
    List (String × ℕ) :=
  let dm := bfsDepths nodes edges
  let m := maxReached dm
  nodes.foldl
    (fun acc n =>
      if (acc.lookup n.id).isNone then acc ++ [(n.id, m + 1)] else acc)
    dm

/-- Final depth of a node id (the `depth` map at the end of `buildLayers`). -/
def treeDepth (nodes : List LayoutNode) (edges : List LayoutEdge)
    (id : String) : Option ℕ :=
  (depthsAll nodes edges).lookup id

/-- Final `maxDepth` returned by `buildLayers` (recomputed after the orphan
pass). -/
def layoutMaxDepth (nodes : List LayoutNode) (edges : List LayoutEdge) : ℕ :=
  maxReached (depthsAll nodes edges)

/-- Layer grouping: ids of the nodes at depth `d`, in input node order
(the grouping loop pushes `n.id` onto `layers[depth.get(n.id)]` for each
node in order). -/
def layerAt (nodes : List LayoutNode) (edges : List LayoutEdge) (d : ℕ) :
    List String :=
  (nodes.filter (fun n => (depthsAll nodes edges).lookup n.id == some d)).map
    LayoutNode.id

/-- Embedding of `computeTreeLayout(nodes, edges, width, height)`.
`Object.entries(layers)` iterates the populated integer keys in ascending
order; all populated keys lie in `0 .. maxDepth`, and unpopulated keys
contribute an empty layer, so iterating `List.range (maxDepth+1)` over the
grouped layers produces the same position-record writes in the same
order. -/
def treeLayerX (width : ℚ) (maxD dep : ℕ) : ℚ :=
  if maxD = 0 then width / 2
  else 60 + ((width - 60 * 2) * (dep : ℚ)) / (maxD : ℚ)

def treeLayerY (height : ℚ) (count i : ℕ) : ℚ :=
  if count = 1 then height / 2
  else 60 + ((height - 60 * 2) * (i : ℚ)) / ((count : ℚ) - 1)

/-- The position-record writes performed for one `Object.entries(layers)`
entry of `computeTreeLayout` (depth `dep`). -/
def treeLayerPositions (nodes : List LayoutNode) (edges : List LayoutEdge)
    (width height : ℚ) (maxD dep : ℕ) : List (String × ℚ × ℚ) :=
  (layerAt nodes edges dep).enum.map (fun p =>
    (p.2, treeLayerX width maxD dep,
      treeLayerY height (layerAt nodes edges dep).length p.1))

def computeTreeLayout (nodes : List LayoutNode) (edges : List LayoutEdge)
    (width height : ℚ) : List (String × ℚ × ℚ) :=
  if nodes.isEmpty then [] else
  (List.range (layoutMaxDepth nodes edges + 1)).flatMap
    (treeLayerPositions nodes edges width height (layoutMaxDepth nodes edges))

/-- Embedding of `computeRadialLayout(nodes, edges, width, height)`, over
`ℝ` because it uses `Math.cos`/`Math.sin`/`Math.PI`. -/
noncomputable def radialRadius (width height : ℝ) (maxD dep : ℕ) : ℝ :=
  if maxD = 0 then 0 else ((dep : ℝ) / (maxD : ℝ)) * (Min.min width height / 2 - 80)

noncomputable def radialAngle (count i : ℕ) : ℝ :=
  2 * Real.pi * (i : ℝ) / (count : ℝ) - Real.pi / 2

/-- The position-record writes performed for one `Object.entries(layers)`
entry of `computeRadialLayout` (depth `dep`). -/
noncomputable def radialLayerPositions (nodes : List LayoutNode)
    (edges : List LayoutEdge) (width height : ℝ) (maxD dep : ℕ) :
    List (String × ℝ × ℝ) :=
  if dep = 0 then
    (layerAt nodes edges dep).map (fun id => (id, width / 2, height / 2))
  else
    (layerAt nodes edges dep).enum.map (fun p =>
      (p.2,
        width / 2 + radialRadius width height maxD dep *
          Real.cos (radialAngle (layerAt nodes edges dep).length p.1),
        height / 2 + radialRadius width height maxD dep *
          Real.sin (radialAngle (layerAt nodes edges dep).length p.1)))

noncomputable def computeRadialLayout (nodes : List LayoutNode)
    (edges : List LayoutEdge) (width height : ℝ) : List (String × ℝ × ℝ) :=
  if nodes.isEmpty then [] else
  (List.range (layoutMaxDepth nodes edges + 1)).flatMap
    (radialLayerPositions nodes edges width height (layoutMaxDepth nodes edges))

/-- Lookup in a position record built by sequential `positions[id] = v`
writes: the last write wins. -/
def posLookup {α : Type} (l : List (String × α)) (id : String) : Option α :=
  l.foldl (fun acc p => if p.1 = id then some p.2 else acc) none

/-! ### Association-list lemmas for the layout proofs -/

theorem posLookup_foldl {α : Type} (l : List (String × α)) (id : String)
    (acc : Option α) :
    l.foldl (fun acc p => if p.1 = id then some p.2 else acc) acc =
      (posLookup l id).or acc := by
  induction l generalizing acc with
  | nil => simp [posLookup]
  | cons p l ih =>
      simp only [posLookup, List.foldl_cons] at *
      rw [ih, ih (if p.1 = id then some p.2 else none)]
      cases h : List.foldl (fun acc p => if p.1 = id then some p.2 else acc)
        none l
      · by_cases hp : p.1 = id <;> simp [hp]
      · simp

theorem posLookup_cons {α : Type} (p : String × α) (l : List (String × α))
    (id : String) :
    posLookup (p :: l) id =
      (posLookup l id).or (if p.1 = id then some p.2 else none) := by
  simp only [posLookup, List.foldl_cons]
  rw [show (if p.1 = id then some p.2 else none : Option α) =
    List.foldl (fun acc p => if p.1 = id then some p.2 else acc) none [p]
    from rfl]
  exact posLookup_foldl l id _

theorem posLookup_append {α : Type} (l₁ l₂ : List (String × α)) (id : String) :
    posLookup (l₁ ++ l₂) id = (posLookup l₂ id).or (posLookup l₁ id) := by
  induction l₁ with
  | nil => simp [posLookup]
  | cons p l ih =>
      rw [List.cons_append, posLookup_cons, ih, posLookup_cons]
      cases posLookup l₂ id <;> simp

theorem posLookup_eq_none {α : Type} (l : List (String × α)) (id : String)
    (h : id ∉ l.map Prod.fst) : posLookup l id = none := by
  induction l with
  | nil => rfl
  | cons p l ih =>
      rw [posLookup_cons]
      simp only [List.map_cons, List.mem_cons] at h
      push_neg at h
      rw [ih h.2]
      simp [Ne.symm h.1]

theorem posLookup_isSome_mem {α : Type} (l : List (String × α)) (id : String)
    (h : (posLookup l id).isSome) : id ∈ l.map Prod.fst := by
  by_contra hc
  rw [posLookup_eq_none l id hc] at h
  simp at h

theorem posLookup_const_map {α : Type} (layer : List String) (id : String)
    (c : α) (h : id ∈ layer) :
    posLookup (layer.map (fun s => (s, c))) id = some c := by
  induction layer with
  | nil => simp at h
  | cons a rest ih =>
      rw [List.map_cons, posLookup_cons]
      by_cases hm : id ∈ rest
      · rw [ih hm]; rfl
      · rcases List.mem_cons.mp h with h1 | h1
        · rw [posLookup_eq_none]
          · simp [h1.symm]
          · simpa using hm
        · exact absurd h1 hm

theorem keys_enumFrom_map {α : Type} (g : ℕ → α) (layer : List String)
    (k : ℕ) :
    ((layer.enumFrom k).map (fun p => (p.2, g p.1))).map Prod.fst = layer := by
  induction layer generalizing k with
  | nil => rfl
  | cons a rest ih => simp [List.enumFrom, ih]

theorem posLookup_enumFrom_map {α : Type} (g : ℕ → α) (layer : List String)
    (k : ℕ) (id : String) (hnd : layer.Nodup) (hmem : id ∈ layer) :
    posLookup ((layer.enumFrom k).map (fun p => (p.2, g p.1))) id =
      some (g (k + layer.indexOf id)) := by
  induction layer generalizing k with
  | nil => simp at hmem
  | cons a rest ih =>
      rw [List.enumFrom, List.map_cons, posLookup_cons]
      rcases List.mem_cons.mp hmem with h1 | h1
      · subst h1
        have hnr : id ∉ rest := (List.nodup_cons.mp hnd).1
        rw [posLookup_eq_none _ _ (by rw [keys_enumFrom_map]; exact hnr)]
        simp [List.indexOf_cons_self]
      · have hne : a ≠ id := by
          rintro rfl; exact (List.nodup_cons.mp hnd).1 h1
        rw [ih (k + 1) (List.nodup_cons.mp hnd).2 h1]
        have hidx : (a :: rest).indexOf id = rest.indexOf id + 1 := by
          rw [List.indexOf_cons]
          have hb : (a == id) = false := beq_eq_false_iff_ne.mpr hne
          simp [hb]
        rw [hidx]
        have harith : k + 1 + rest.indexOf id = k + (rest.indexOf id + 1) := by
          omega
        rw [harith]
        rfl

theorem posLookup_enum_map {α : Type} (g : ℕ → α) (layer : List String)
    (id : String) (hnd : layer.Nodup) (hmem : id ∈ layer) :
    posLookup (layer.enum.map (fun p => (p.2, g p.1))) id =
      some (g (layer.indexOf id)) := by
  rw [List.enum_eq_enumFrom]
  have := posLookup_enumFrom_map g layer 0 id hnd hmem
  rwa [Nat.zero_add] at this

theorem posLookup_flatMap_none {α β : Type} (ds : List β)
    (f : β → List (String × α)) (id : String)
    (h : ∀ b ∈ ds, id ∉ (f b).map Prod.fst) :
    posLookup (ds.flatMap f) id = none := by
  induction ds with
  | nil => rfl
  | cons c ds ih =>
      rw [List.flatMap_cons, posLookup_append,
        ih (fun b hb => h b (List.mem_cons_of_mem c hb)),
        posLookup_eq_none _ _ (h c (List.mem_cons_self c ds))]
      rfl

theorem posLookup_flatMap_unique {α β : Type} [DecidableEq β] (ds : List β)
    (f : β → List (String × α)) (id : String) (b : β) (v : α)
    (hds : ds.Nodup) (hb : b ∈ ds)
    (hocc : ∀ b' ∈ ds, b' ≠ b → id ∉ (f b').map Prod.fst)
    (hv : posLookup (f b) id = some v) :
    posLookup (ds.flatMap f) id = some v := by
  induction ds with
  | nil => simp at hb
  | cons c ds ih =>
      rw [List.flatMap_cons, posLookup_append]
      rcases List.mem_cons.mp hb with h1 | h1
      · subst h1
        rw [posLookup_flatMap_none ds f id
          (fun b' hb' => hocc b' (List.mem_cons_of_mem _ hb')
            (by rintro rfl; exact (List.nodup_cons.mp hds).1 hb')),
          Option.none_or]
        exact hv
      · rw [ih (List.nodup_cons.mp hds).2 h1
          (fun b' hb' hne => hocc b' (List.mem_cons_of_mem _ hb') hne)]
        rfl

theorem lookup_some_mem {β : Type} (l : List (String × β)) (a : String)
    (b : β) (h : l.lookup a = some b) : (a, b) ∈ l := by
  induction l with
  | nil => simp [List.lookup] at h
  | cons p l ih =>
      cases p with
      | mk k v =>
          rw [List.lookup_cons] at h
          by_cases hk : a = k
          · subst hk
            simp only [beq_self_eq_true] at h
            cases h
            exact List.mem_cons_self _ _
          · have hb : (a == k) = false := beq_eq_false_iff_ne.mpr hk
            rw [hb] at h
            exact List.mem_cons_of_mem _ (ih h)

theorem lookup_none_of_not_mem_keys {β : Type} (l : List (String × β))
    (a : String) (h : a ∉ l.map Prod.fst) : l.lookup a = none := by
  induction l with
  | nil => rfl
  | cons p l ih =>
      cases p with
      | mk k v =>
          simp only [List.map_cons, List.mem_cons] at h
          push_neg at h
          rw [List.lookup_cons]
          have hb : (a == k) = false := beq_eq_false_iff_ne.mpr h.1
          rw [hb]
          exact ih h.2

theorem foldl_max_ge_init (dm : List (String × ℕ)) (init : ℕ) :
    init ≤ dm.foldl (fun m p => max m p.2) init := by
  induction dm generalizing init with
  | nil => exact le_refl _
  | cons p l ih =>
      exact le_trans (le_max_left init p.2) (ih (max init p.2))

theorem foldl_max_ge_mem (dm : List (String × ℕ)) (init : ℕ)
    (p : String × ℕ) (hp : p ∈ dm) :
    p.2 ≤ dm.foldl (fun m q => max m q.2) init := by
  induction dm generalizing init with
  | nil => simp at hp
  | cons q l ih =>
      rcases List.mem_cons.mp hp with h1 | h1
      · subst h1
        exact le_trans (le_max_right init p.2) (foldl_max_ge_init l _)
      · exact ih _ h1

/-- Any depth stored in a depth map is at most its running maximum. -/
theorem lookup_le_maxReached (dm : List (String × ℕ)) (id : String) (d : ℕ)
    (h : dm.lookup id = some d) : d ≤ maxReached dm :=
  foldl_max_ge_mem dm 0 (id, d) (lookup_some_mem dm id d h)

/-- Characterisation of the orphan pass: an id keeps its BFS depth if it has
one, otherwise it gets `m + 1` exactly when it is one of the node ids. -/
theorem orphanFold_lookup (ns : List LayoutNode) (m : ℕ) (key : String) :
    ∀ acc : List (String × ℕ),
      ((ns.foldl
          (fun acc n =>
            if (acc.lookup n.id).isNone then acc ++ [(n.id, m + 1)] else acc)
          acc).lookup key) =
        (acc.lookup key).or
          (if key ∈ ns.map LayoutNode.id then some (m + 1) else none) := by
  induction ns with
  | nil => intro acc; cases h : List.lookup key acc <;> simp [h]
  | cons n ns ih =>
      intro acc
      rw [List.foldl_cons]
      by_cases habs : (List.lookup n.id acc).isNone
      · rw [if_pos habs, ih]
        by_cases hid : key = n.id
        · rw [Option.isNone_iff_eq_none] at habs
          rw [hid]
          have hone : List.lookup n.id ([(n.id, m + 1)] : List (String × ℕ)) =
              some (m + 1) := by
            rw [List.lookup_cons]
            simp
          rw [List.lookup_append, habs, Option.none_or, hone]
          simp
        · have hone : List.lookup key ([(n.id, m + 1)] : List (String × ℕ)) =
              none :=
            lookup_none_of_not_mem_keys _ _ (by simpa using hid)
          rw [List.lookup_append, hone, Option.or_none]
          simp only [List.map_cons, List.mem_cons, hid, false_or]
      · rw [if_neg habs, ih]
        cases hv : List.lookup n.id acc with
        | none => rw [hv, Option.isNone_none] at habs; exact absurd rfl habs
        | some v =>
            by_cases hid : key = n.id
            · rw [hid, hv]
              cases hm : (if key ∈ ns.map LayoutNode.id
                then some (m + 1) else none : Option ℕ) <;> simp
            · simp only [List.map_cons, List.mem_cons, hid, false_or]

/-! ### Depth-map and layer lemmas -/

theorem treeDepth_eq_or (nodes : List LayoutNode) (edges : List LayoutEdge)
    (key : String) :
    treeDepth nodes edges key =
      ((bfsDepths nodes edges).lookup key).or
        (if key ∈ nodes.map LayoutNode.id
         then some (maxReached (bfsDepths nodes edges) + 1) else none) := by
  simp only [treeDepth, depthsAll]
  exact orphanFold_lookup nodes _ key _

/-- Every node id has a depth after the orphan pass: the depth map is total
on the input nodes. -/
theorem treeDepth_isSome_of_mem (nodes : List LayoutNode)
    (edges : List LayoutEdge) (key : String)
    (hmem : key ∈ nodes.map LayoutNode.id) :
    (treeDepth nodes edges key).isSome := by
  rw [treeDepth_eq_or]
  cases h : (bfsDepths nodes edges).lookup key <;> simp [hmem, h]

theorem treeDepth_le_maxDepth (nodes : List LayoutNode)
    (edges : List LayoutEdge) (key : String) (d : ℕ)
    (h : treeDepth nodes edges key = some d) :
    d ≤ layoutMaxDepth nodes edges :=
  lookup_le_maxReached (depthsAll nodes edges) key d h

theorem mem_layerAt_iff (nodes : List LayoutNode) (edges : List LayoutEdge)
    (d : ℕ) (key : String) :
    key ∈ layerAt nodes edges d ↔
      key ∈ nodes.map LayoutNode.id ∧ treeDepth nodes edges key = some d := by
  simp only [layerAt, treeDepth]
  constructor
  · intro hk
    rcases List.mem_map.mp hk with ⟨n, hn, rfl⟩
    have hf := List.mem_filter.mp hn
    refine ⟨List.mem_map.mpr ⟨n, hf.1, rfl⟩, ?_⟩
    simpa using hf.2
  · rintro ⟨hmem, hdep⟩
    rcases List.mem_map.mp hmem with ⟨n, hn, rfl⟩
    exact List.mem_map.mpr
      ⟨n, List.mem_filter.mpr ⟨hn, by simpa using hdep⟩, rfl⟩

theorem layerAt_nodup (nodes : List LayoutNode) (edges : List LayoutEdge)
    (d : ℕ) (hnd : (nodes.map LayoutNode.id).Nodup) :
    (layerAt nodes edges d).Nodup :=
  List.Nodup.sublist ((List.filter_sublist nodes).map LayoutNode.id) hnd

theorem treeLayerPositions_keys (nodes : List LayoutNode)
    (edges : List LayoutEdge) (w h : ℚ) (maxD dep : ℕ) :
    (treeLayerPositions nodes edges w h maxD dep).map Prod.fst =
      layerAt nodes edges dep := by
  simp only [treeLayerPositions]
  rw [List.enum_eq_enumFrom]
  exact keys_enumFrom_map
    (fun i => (treeLayerX w maxD dep,
      treeLayerY h (layerAt nodes edges dep).length i)) _ _

theorem nodup_flatMap_keys {β : Type} (ds : List β) (f : β → List String)
    (hds : ds.Nodup) (hlayer : ∀ b ∈ ds, (f b).Nodup)
    (hdisj : ∀ b1 ∈ ds, ∀ b2 ∈ ds, b1 ≠ b2 → ∀ k, k ∈ f b1 → k ∉ f b2) :
    (ds.flatMap f).Nodup := by
  induction ds with
  | nil => exact List.nodup_nil
  | cons c ds ih =>
      rw [List.flatMap_cons, List.nodup_append]
      refine ⟨hlayer c (List.mem_cons_self c ds),
        ih (List.nodup_cons.mp hds).2
          (fun b hb => hlayer b (List.mem_cons_of_mem _ hb))
          (fun b1 hb1 b2 hb2 hne k =>
            hdisj b1 (List.mem_cons_of_mem _ hb1) b2
              (List.mem_cons_of_mem _ hb2) hne k), ?_⟩
      intro k hk1 hk2
      rcases List.mem_flatMap.mp hk2 with ⟨b, hb, hkb⟩
      have hbc : c ≠ b := by
        rintro rfl
        exact (List.nodup_cons.mp hds).1 hb
      exact hdisj c (List.mem_cons_self c ds) b (List.mem_cons_of_mem _ hb)
        hbc k hk1 hkb

/-- The position value `computeTreeLayout` records for a node id at depth
`d`, exactly the per-layer formulas of the source. -/
theorem computeTreeLayout_value (nodes : List LayoutNode)
    (edges : List LayoutEdge) (w h : ℚ) (key : String) (d : ℕ)
    (hnd : (nodes.map LayoutNode.id).Nodup)
    (hdep : treeDepth nodes edges key = some d)
    (hmem : key ∈ nodes.map LayoutNode.id) :
    posLookup (computeTreeLayout nodes edges w h) key =
      some (treeLayerX w (layoutMaxDepth nodes edges) d,
        treeLayerY h (layerAt nodes edges d).length
          ((layerAt nodes edges d).indexOf key)) := by
  have hne : nodes ≠ [] := by rintro rfl; simp at hmem
  rw [computeTreeLayout,
    if_neg (fun hc => hne (List.isEmpty_iff.mp hc))]
  apply posLookup_flatMap_unique _ _ _ d _ (List.nodup_range _)
    (List.mem_range.mpr
      (Nat.lt_succ_of_le (treeDepth_le_maxDepth nodes edges key d hdep)))
  · intro b hb hbne
    rw [treeLayerPositions_keys]
    intro hk
    rcases (mem_layerAt_iff nodes edges b key).mp hk with ⟨_, hd2⟩
    rw [hdep] at hd2
    cases hd2
    exact hbne rfl
  · have hmeml : key ∈ layerAt nodes edges d :=
      (mem_layerAt_iff nodes edges d key).mpr ⟨hmem, hdep⟩
    simp only [treeLayerPositions]
    rw [List.enum_eq_enumFrom]
    have := posLookup_enumFrom_map
      (fun i => (treeLayerX w (layoutMaxDepth nodes edges) d,
        treeLayerY h (layerAt nodes edges d).length i))
      (layerAt nodes edges d) 0 key
      (layerAt_nodup nodes edges d hnd) hmeml
    rwa [Nat.zero_add] at this

/-- Key-set of the layered layout: a defined position exactly for the input
node ids. -/
theorem computeTreeLayout_isSome_iff (nodes : List LayoutNode)
    (edges : List LayoutEdge) (w h : ℚ) (key : String)
    (hnd : (nodes.map LayoutNode.id).Nodup) :
    (posLookup (computeTreeLayout nodes edges w h) key).isSome ↔
      key ∈ nodes.map LayoutNode.id := by
  constructor
  · intro hs
    have hk := posLookup_isSome_mem _ _ hs
    rw [computeTreeLayout] at hk
    by_cases hne : nodes.isEmpty
    · rw [if_pos hne] at hk
      simp at hk
    · rw [if_neg hne, List.map_flatMap] at hk
      rcases List.mem_flatMap.mp hk with ⟨dep, _, hkdep⟩
      rw [treeLayerPositions_keys] at hkdep
      exact ((mem_layerAt_iff nodes edges dep key).mp hkdep).1
  · intro hmem
    rcases Option.isSome_iff_exists.mp
      (treeDepth_isSome_of_mem nodes edges key hmem) with ⟨d, hd⟩
    rw [computeTreeLayout_value nodes edges w h key d hnd hd hmem]
    rfl

/-- Each id receives at most one position record write. -/
theorem computeTreeLayout_keys_nodup (nodes : List LayoutNode)
    (edges : List LayoutEdge) (w h : ℚ)
    (hnd : (nodes.map LayoutNode.id).Nodup) :
    ((computeTreeLayout nodes edges w h).map Prod.fst).Nodup := by
  rw [computeTreeLayout]
  by_cases hne : nodes.isEmpty
  · rw [if_pos hne]; exact List.nodup_nil
  · rw [if_neg hne, List.map_flatMap]
    simp only [treeLayerPositions_keys]
    apply nodup_flatMap_keys _ _ (List.nodup_range _)
      (fun b _ => layerAt_nodup nodes edges b hnd)
    intro b1 _ b2 _ hbne k hk1 hk2
    rcases (mem_layerAt_iff nodes edges b1 k).mp hk1 with ⟨_, h1⟩
    rcases (mem_layerAt_iff nodes edges b2 k).mp hk2 with ⟨_, h2⟩
    rw [h1] at h2
    cases h2
    exact hbne rfl

theorem treeLayerX_strictMono (w : ℚ) (hw : 120 < w) (maxD d1 d2 : ℕ)
    (h12 : d1 < d2) (h2 : d2 ≤ maxD) :
    treeLayerX w maxD d1 < treeLayerX w maxD d2 := by
  have hmd : maxD ≠ 0 := by omega
  simp only [treeLayerX, if_neg hmd]
  have hpos : (0 : ℚ) < w - 60 * 2 := by linarith
  have hmdq : (0 : ℚ) < (maxD : ℚ) := by
    exact_mod_cast Nat.pos_of_ne_zero hmd
  have hd12 : (d1 : ℚ) < (d2 : ℚ) := by exact_mod_cast h12
  have := div_lt_div_of_pos_right
    (mul_lt_mul_of_pos_left hd12 hpos) hmdq
  linarith

/-- Claim C6: layered layout postcondition.  `computeTreeLayout` returns
exactly one position per input node id and no extra ids, and the empty node
list yields the empty mapping; a node at depth `d` gets
`x = width/2` when `maxDepth = 0` and `x = 60 + (width-120)·d/maxDepth`
otherwise, and the `i`-th member (in layer order) of a layer of `n` members
gets `y = height/2` when `n = 1` and `y = 60 + (height-120)·i/(n-1)`
otherwise (`treeLayerX`/`treeLayerY` are literally those formulas);
consequently `x` is strictly increasing in depth whenever `width > 120`. -/
theorem claim_C6_computeTreeLayout (nodes : List LayoutNode)
    (edges : List LayoutEdge) (w h : ℚ)
    (hnd : (nodes.map LayoutNode.id).Nodup) :
    (computeTreeLayout [] edges w h = []) ∧
    ((computeTreeLayout nodes edges w h).map Prod.fst).Nodup ∧
    (∀ key, (posLookup (computeTreeLayout nodes edges w h) key).isSome ↔
        key ∈ nodes.map LayoutNode.id) ∧
    (∀ key d, key ∈ nodes.map LayoutNode.id →
      treeDepth nodes edges key = some d →
      posLookup (computeTreeLayout nodes edges w h) key =
        some (treeLayerX w (layoutMaxDepth nodes edges) d,
          treeLayerY h (layerAt nodes edges d).length
            ((layerAt nodes edges d).indexOf key))) ∧
    (120 < w → ∀ k1 k2 d1 d2,
      k1 ∈ nodes.map LayoutNode.id → k2 ∈ nodes.map LayoutNode.id →
      treeDepth nodes edges k1 = some d1 →
      treeDepth nodes edges k2 = some d2 → d1 < d2 →
      ∀ p1 p2 : ℚ × ℚ,
        posLookup (computeTreeLayout nodes edges w h) k1 = some p1 →
        posLookup (computeTreeLayout nodes edges w h) k2 = some p2 →
        p1.1 < p2.1) := by
  refine ⟨by rw [computeTreeLayout]; rfl,
    computeTreeLayout_keys_nodup nodes edges w h hnd,
    fun key => computeTreeLayout_isSome_iff nodes edges w h key hnd,
    fun key d hmem hdep =>
      computeTreeLayout_value nodes edges w h key d hnd hdep hmem, ?_⟩
  intro hw k1 k2 d1 d2 hm1 hm2 hd1 hd2 hlt p1 p2 hp1 hp2
  rw [computeTreeLayout_value nodes edges w h k1 d1 hnd hd1 hm1] at hp1
  rw [computeTreeLayout_value nodes edges w h k2 d2 hnd hd2 hm2] at hp2
  cases hp1
  cases hp2
  exact treeLayerX_strictMono w hw _ d1 d2 hlt
    (treeDepth_le_maxDepth nodes edges k2 d2 hd2)

/-- Witness for C6: the spec example `a→b, a→c, b→d` on an 800×500 canvas;
node `d` (depth 2 of maxDepth 2, sole member of its layer) lands at
`(740, 250)`. -/
theorem claim_C6_witness :
    (([⟨"a"⟩, ⟨"b"⟩, ⟨"c"⟩, ⟨"d"⟩] : List LayoutNode).map
        LayoutNode.id).Nodup ∧
    posLookup
      (computeTreeLayout [⟨"a"⟩, ⟨"b"⟩, ⟨"c"⟩, ⟨"d"⟩]
        [⟨"a", "b"⟩, ⟨"a", "c"⟩, ⟨"b", "d"⟩] 800 500) "d" =
      some (740, 250) := by
  have H := claim_C6_computeTreeLayout
    [⟨"a"⟩, ⟨"b"⟩, ⟨"c"⟩, ⟨"d"⟩] [⟨"a", "b"⟩, ⟨"a", "c"⟩, ⟨"b", "d"⟩]
    800 500 (by decide)
  refine ⟨by decide, ?_⟩
  have hv := H.2.2.2.1 "d" 2 (by decide)
    (by set_option maxRecDepth 10000 in with_unfolding_all decide)
  rw [hv]
  set_option maxRecDepth 10000 in with_unfolding_all decide

theorem radialLayerPositions_keys (nodes : List LayoutNode)
    (edges : List LayoutEdge) (w h : ℝ) (maxD dep : ℕ) :
    (radialLayerPositions nodes edges w h maxD dep).map Prod.fst =
      layerAt nodes edges dep := by
  simp only [radialLayerPositions]
  by_cases h0 : dep = 0
  · rw [if_pos h0, List.map_map]
    exact List.map_id _
  · rw [if_neg h0, List.enum_eq_enumFrom]
    exact keys_enumFrom_map
      (fun i => (w / 2 + radialRadius w h maxD dep *
          Real.cos (radialAngle (layerAt nodes edges dep).length i),
        h / 2 + radialRadius w h maxD dep *
          Real.sin (radialAngle (layerAt nodes edges dep).length i))) _ _

/-- Value of the radial layout at a node id of depth `d`. -/
theorem computeRadialLayout_value (nodes : List LayoutNode)
    (edges : List LayoutEdge) (w h : ℝ) (key : String) (d : ℕ)
    (hnd : (nodes.map LayoutNode.id).Nodup)
    (hdep : treeDepth nodes edges key = some d)
    (hmem : key ∈ nodes.map LayoutNode.id) :
    posLookup (computeRadialLayout nodes edges w h) key =
      some (if d = 0 then (w / 2, h / 2)
        else
          (w / 2 + radialRadius w h (layoutMaxDepth nodes edges) d *
            Real.cos (radialAngle (layerAt nodes edges d).length
              ((layerAt nodes edges d).indexOf key)),
           h / 2 + radialRadius w h (layoutMaxDepth nodes edges) d *
            Real.sin (radialAngle (layerAt nodes edges d).length
              ((layerAt nodes edges d).indexOf key)))) := by
  have hne : nodes ≠ [] := by rintro rfl; simp at hmem
  have hmeml : key ∈ layerAt nodes edges d :=
    (mem_layerAt_iff nodes edges d key).mpr ⟨hmem, hdep⟩
  rw [computeRadialLayout,
    if_neg (fun hc => hne (List.isEmpty_iff.mp hc))]
  apply posLookup_flatMap_unique _ _ _ d _ (List.nodup_range _)
    (List.mem_range.mpr
      (Nat.lt_succ_of_le (treeDepth_le_maxDepth nodes edges key d hdep)))
  · intro b hb hbne
    rw [radialLayerPositions_keys]
    intro hk
    rcases (mem_layerAt_iff nodes edges b key).mp hk with ⟨_, hd2⟩
    rw [hdep] at hd2
    cases hd2
    exact hbne rfl
  · simp only [radialLayerPositions]
    by_cases h0 : d = 0
    · rw [if_pos h0, if_pos h0]
      exact posLookup_const_map _ _ _ hmeml
    · rw [if_neg h0, if_neg h0, List.enum_eq_enumFrom]
      have := posLookup_enumFrom_map
        (fun i => (w / 2 + radialRadius w h (layoutMaxDepth nodes edges) d *
            Real.cos (radialAngle (layerAt nodes edges d).length i),
          h / 2 + radialRadius w h (layoutMaxDepth nodes edges) d *
            Real.sin (radialAngle (layerAt nodes edges d).length i)))
        (layerAt nodes edges d) 0 key
        (layerAt_nodup nodes edges d hnd) hmeml
      rwa [Nat.zero_add] at this

/-- Claim C7: radial layout postcondition.  Depth-0 nodes sit exactly at the
canvas center `(width/2, height/2)`; a node of depth `d > 0` that is member
`i` of its ring of `n` members sits at angle `2π·i/n − π/2` and radius
`(d/maxDepth)·(min(width,height)/2 − 80)` from the center; and any two nodes
of equal depth are equidistant from the center. -/
theorem claim_C7_computeRadialLayout (nodes : List LayoutNode)
    (edges : List LayoutEdge) (w h : ℝ)
    (hnd : (nodes.map LayoutNode.id).Nodup) :
    (∀ key, key ∈ nodes.map LayoutNode.id →
      treeDepth nodes edges key = some 0 →
      posLookup (computeRadialLayout nodes edges w h) key =
        some (w / 2, h / 2)) ∧
    (∀ key d, key ∈ nodes.map LayoutNode.id →
      treeDepth nodes edges key = some d → 0 < d →
      posLookup (computeRadialLayout nodes edges w h) key =
        some (w / 2 +
            ((d : ℝ) / (layoutMaxDepth nodes edges : ℝ)) *
              (Min.min w h / 2 - 80) *
              Real.cos (2 * Real.pi *
                  ((layerAt nodes edges d).indexOf key : ℝ) /
                  ((layerAt nodes edges d).length : ℝ) - Real.pi / 2),
          h / 2 +
            ((d : ℝ) / (layoutMaxDepth nodes edges : ℝ)) *
              (Min.min w h / 2 - 80) *
              Real.sin (2 * Real.pi *
                  ((layerAt nodes edges d).indexOf key : ℝ) /
                  ((layerAt nodes edges d).length : ℝ) - Real.pi / 2))) ∧
    (∀ k1 k2 d (p1 p2 : ℝ × ℝ),
      k1 ∈ nodes.map LayoutNode.id → k2 ∈ nodes.map LayoutNode.id →
      treeDepth nodes edges k1 = some d →
      treeDepth nodes edges k2 = some d →
      posLookup (computeRadialLayout nodes edges w h) k1 = some p1 →
      posLookup (computeRadialLayout nodes edges w h) k2 = some p2 →
      (p1.1 - w / 2) ^ 2 + (p1.2 - h / 2) ^ 2 =
        (p2.1 - w / 2) ^ 2 + (p2.2 - h / 2) ^ 2) := by
  have hcossin : ∀ (r a : ℝ),
      (w / 2 + r * Real.cos a - w / 2) ^ 2 +
        (h / 2 + r * Real.sin a - h / 2) ^ 2 = r ^ 2 := by
    intro r a
    have h1 : w / 2 + r * Real.cos a - w / 2 = r * Real.cos a := by ring
    have h2 : h / 2 + r * Real.sin a - h / 2 = r * Real.sin a := by ring
    rw [h1, h2, mul_pow, mul_pow, ← mul_add, Real.cos_sq_add_sin_sq, mul_one]
  refine ⟨?_, ?_, ?_⟩
  · intro key hmem hdep
    rw [computeRadialLayout_value nodes edges w h key 0 hnd hdep hmem]
    rfl
  · intro key d hmem hdep hd0
    have hmd : layoutMaxDepth nodes edges ≠ 0 := by
      have := treeDepth_le_maxDepth nodes edges key d hdep
      omega
    rw [computeRadialLayout_value nodes edges w h key d hnd hdep hmem,
      if_neg (Nat.pos_iff_ne_zero.mp hd0)]
    simp only [radialRadius, radialAngle, if_neg hmd]
  · intro k1 k2 d p1 p2 hm1 hm2 hd1 hd2 hp1 hp2
    rw [computeRadialLayout_value nodes edges w h k1 d hnd hd1 hm1] at hp1
    rw [computeRadialLayout_value nodes edges w h k2 d hnd hd2 hm2] at hp2
    by_cases h0 : d = 0
    · rw [if_pos h0] at hp1 hp2
      cases hp1
      cases hp2
      simp
    · rw [if_neg h0] at hp1 hp2
      cases hp1
      cases hp2
      simp only
      rw [hcossin, hcossin]

/-- Witness for C7: with nodes `a, b` and edge `a→b` on a 500×500 canvas,
the root `a` (depth 0) is placed exactly at the canvas center. -/
theorem claim_C7_witness :
    (([⟨"a"⟩, ⟨"b"⟩] : List LayoutNode).map LayoutNode.id).Nodup ∧
    posLookup
      (computeRadialLayout [⟨"a"⟩, ⟨"b"⟩] [⟨"a", "b"⟩] 500 500) "a" =
      some (250, 250) := by
  have H := claim_C7_computeRadialLayout [⟨"a"⟩, ⟨"b"⟩] [⟨"a", "b"⟩]
    500 500 (by decide)
  refine ⟨by decide, ?_⟩
  have hv := H.1 "a" (by decide) (by with_unfolding_all decide)
  rw [hv]
  norm_num

/-! ### BFS termination (claim C8)

The `while (queue.length > 0)` loop is modelled with fuel; the lemmas below
show the supplied fuel provably drains the queue, i.e. the source loop
terminates: every iteration pops one id, and ids are pushed only together
with a fresh depth-map insertion, whose keys all come from the finite set
`root :: edges.map target`. -/

theorem lookup_isSome_of_mem_keys {β : Type} (l : List (String × β))
    (a : String) (h : a ∈ l.map Prod.fst) : (l.lookup a).isSome := by
  induction l with
  | nil => simp at h
  | cons p l ih =>
      cases p with
      | mk k v =>
          rw [List.lookup_cons]
          by_cases hk : a = k
          · subst hk
            simp
          · have hb : (a == k) = false := beq_eq_false_iff_ne.mpr hk
            rw [hb]
            simp only [List.map_cons, List.mem_cons] at h
            rcases h with h1 | h1
            · exact absurd h1 hk
            · exact ih h1

theorem nodup_subset_length_le (l u : List String) (hnd : l.Nodup)
    (hsub : ∀ k ∈ l, k ∈ u) (hu : u.Nodup) : l.length ≤ u.length := by
  have h1 : l.toFinset.card = l.length := List.toFinset_card_of_nodup hnd
  have h2 : u.toFinset.card = u.length := List.toFinset_card_of_nodup hu
  have h3 : l.toFinset ⊆ u.toFinset := by
    intro x hx
    rw [List.mem_toFinset] at hx ⊢
    exact hsub x hx
  calc l.length = l.toFinset.card := h1.symm
    _ ≤ u.toFinset.card := Finset.card_le_card h3
    _ = u.length := h2

/-- Effect of the inner child loop: it appends some fresh ids `push ⊆ cs`
to the depth map (at depth `d+1`) and to the queue, preserving key
uniqueness. -/
theorem bfsChildren_facts (cs : List String) (d : ℕ) :
    ∀ (dm : List (String × ℕ)) (qa : List String),
      ∃ push : List String,
        bfsChildren cs d (dm, qa) =
          (dm ++ push.map (fun k => (k, d + 1)), qa ++ push) ∧
        (∀ k ∈ push, k ∈ cs) ∧
        ((dm.map Prod.fst).Nodup →
          ((dm ++ push.map (fun k => (k, d + 1))).map Prod.fst).Nodup) := by
  induction cs with
  | nil => intro dm qa; exact ⟨[], by simp [bfsChildren], by simp, by simp⟩
  | cons c cs ih =>
      intro dm qa
      simp only [bfsChildren, List.foldl_cons]
      by_cases habs : (dm.lookup c).isNone
      · rw [if_pos habs]
        rcases ih (dm ++ [(c, d + 1)]) (qa ++ [c]) with ⟨push, heq, hsub, hnd⟩
        refine ⟨c :: push, ?_, ?_, ?_⟩
        · simp only [bfsChildren] at heq
          rw [heq]
          simp
        · intro k hk
          rcases List.mem_cons.mp hk with h1 | h1
          · exact h1 ▸ List.mem_cons_self c cs
          · exact List.mem_cons_of_mem c (hsub k h1)
        · intro hdm
          have hc : c ∉ dm.map Prod.fst := by
            intro hc
            rw [Option.isNone_iff_eq_none,
              ← Option.not_isSome_iff_eq_none] at habs
            exact habs (lookup_isSome_of_mem_keys dm c hc)
          have := hnd (by
            rw [List.map_append]
            simp only [List.map_cons, List.map_nil]
            rw [List.nodup_append]
            exact ⟨hdm, List.nodup_singleton c, by
              intro x hx hx2
              simp only [List.mem_singleton] at hx2
              subst hx2
              exact hc hx⟩)
          simpa using this
      · rw [if_neg habs]
        rcases ih dm qa with ⟨push, heq, hsub, hnd⟩
        exact ⟨push, heq, fun k hk => List.mem_cons_of_mem c (hsub k hk), hnd⟩

/-- With the fuel supplied by `bfsFuel`, the BFS queue genuinely drains: the
modelled `while` loop reaches `queue.length == 0` rather than running out of
budget. -/
theorem bfsLoop_drains (c : String → List String) (univ : List String)
    (hc : ∀ id k, k ∈ c id → k ∈ univ) (huniv : univ.Nodup) :
    ∀ (fuel : ℕ) (dm : List (String × ℕ)) (q : List String),
      (dm.map Prod.fst).Nodup →
      (∀ k ∈ dm.map Prod.fst, k ∈ univ) →
      q.length + 2 * univ.length ≤ fuel + 2 * dm.length →
      (bfsLoop c fuel dm q).2 = [] := by
  intro fuel
  induction fuel with
  | zero =>
      intro dm q hnd hsub harith
      have hle : dm.length ≤ univ.length := by
        have := nodup_subset_length_le (dm.map Prod.fst) univ
          hnd hsub huniv
        simpa using this
      have hq : q = [] := by
        have : q.length = 0 := by omega
        exact List.length_eq_zero.mp this
      subst hq
      rfl
  | succ fuel ih =>
      intro dm q hnd hsub harith
      match q with
      | [] => rfl
      | id :: rest =>
          simp only [bfsLoop]
          rcases bfsChildren_facts (c id) ((dm.lookup id).getD 0) dm []
            with ⟨push, heq, hpush, hndpres⟩
          rw [heq]
          apply ih
          · exact hndpres hnd
          · intro k hk
            rw [List.map_append] at hk
            rcases List.mem_append.mp hk with h1 | h1
            · exact hsub k h1
            · rcases List.mem_map.mp h1 with ⟨p, hp, hfst⟩
              rcases List.mem_map.mp hp with ⟨k2, hk2, hk2e⟩
              subst hk2e
              cases hfst
              exact hc id k2 (hpush k2 hk2)
          · have hlen : (dm ++ push.map (fun k => (k, ((dm.lookup id).getD 0) + 1))).length =
                dm.length + push.length := by
              simp
            have hq : ([] ++ push : List String).length = push.length := by simp
            simp only [List.length_append, List.length_nil, List.length_cons,
              List.length_map, Nat.zero_add] at *
            omega

/-- BFS only ever appends to the depth map, so an assigned depth is never
overwritten (first assignment wins). -/
theorem bfsLoop_lookup_mono (c : String → List String) :
    ∀ (fuel : ℕ) (dm : List (String × ℕ)) (q : List String) (key : String)
      (v : ℕ), dm.lookup key = some v →
      ((bfsLoop c fuel dm q).1).lookup key = some v := by
  intro fuel
  induction fuel with
  | zero => intro dm q key v hv; exact hv
  | succ fuel ih =>
      intro dm q key v hv
      match q with
      | [] => exact hv
      | id :: rest =>
          simp only [bfsLoop]
          rcases bfsChildren_facts (c id) ((dm.lookup id).getD 0) dm []
            with ⟨push, heq, _, _⟩
          rw [heq]
          apply ih
          rw [List.lookup_append, hv]
          rfl

theorem bfsLoop_keys_nodup (c : String → List String) :
    ∀ (fuel : ℕ) (dm : List (String × ℕ)) (q : List String),
      (dm.map Prod.fst).Nodup →
      (((bfsLoop c fuel dm q).1).map Prod.fst).Nodup := by
  intro fuel
  induction fuel with
  | zero => intro dm q hnd; exact hnd
  | succ fuel ih =>
      intro dm q hnd
      match q with
      | [] => exact hnd
      | id :: rest =>
          simp only [bfsLoop]
          rcases bfsChildren_facts (c id) ((dm.lookup id).getD 0) dm []
            with ⟨push, heq, _, hndp⟩
          rw [heq]
          exact ih _ _ (hndp hnd)

theorem orphanFold_keys_nodup (ns : List LayoutNode) (m : ℕ) :
    ∀ acc : List (String × ℕ), (acc.map Prod.fst).Nodup →
      ((ns.foldl
          (fun acc n =>
            if (acc.lookup n.id).isNone then acc ++ [(n.id, m + 1)] else acc)
          acc).map Prod.fst).Nodup := by
  induction ns with
  | nil => intro acc hnd; exact hnd
  | cons n ns ih =>
      intro acc hnd
      rw [List.foldl_cons]
      by_cases habs : (acc.lookup n.id).isNone
      · rw [if_pos habs]
        apply ih
        rw [List.map_append]
        simp only [List.map_cons, List.map_nil]
        rw [List.nodup_append]
        refine ⟨hnd, List.nodup_singleton _, ?_⟩
        intro x hx hx2
        simp only [List.mem_singleton] at hx2
        subst hx2
        rw [Option.isNone_iff_eq_none] at habs
        have hs := lookup_isSome_of_mem_keys acc n.id hx
        rw [habs] at hs
        simp at hs
      · rw [if_neg habs]
        exact ih acc hnd

theorem depthsAll_keys_nodup (nodes : List LayoutNode)
    (edges : List LayoutEdge) :
    ((depthsAll nodes edges).map Prod.fst).Nodup := by
  simp only [depthsAll]
  apply orphanFold_keys_nodup
  simp only [bfsDepths]
  cases hr : rootOf nodes edges with
  | none => exact List.nodup_nil
  | some r =>
      exact bfsLoop_keys_nodup _ _ _ _ (by simp)

/-- Claim C8: cycle-safe depth assignment.  Root selection is the first
zero-in-degree node in input order, falling back to `nodes[0]`; the BFS
loop terminates (its queue provably drains within the modelled fuel, even
on cyclic graphs); the root gets depth 0; every node id receives exactly
one depth (the depth map's keys are duplicate-free and every node id is
assigned); every node the BFS did not reach receives
`maxReachedDepth + 1`; and on `nodes = [a, b]` with edges `a→b, b→a` both
static layouts terminate and return two distinct finite positions. -/
theorem claim_C8_buildLayers (nodes : List LayoutNode)
    (edges : List LayoutEdge) :
    (∀ n rest, nodes.filter (fun n => inDegree edges n.id == 0) = n :: rest →
        rootOf nodes edges = some n.id) ∧
    (nodes.filter (fun n => inDegree edges n.id == 0) = [] →
        rootOf nodes edges = nodes.head?.map LayoutNode.id) ∧
    (∀ r, rootOf nodes edges = some r →
      (bfsLoop (childrenOf nodes edges) (bfsFuel edges) [(r, 0)] [r]).2 =
        []) ∧
    (∀ r, rootOf nodes edges = some r →
      treeDepth nodes edges r = some 0) ∧
    (((depthsAll nodes edges).map Prod.fst).Nodup) ∧
    (∀ key, key ∈ nodes.map LayoutNode.id →
      (treeDepth nodes edges key).isSome) ∧
    (∀ key, key ∈ nodes.map LayoutNode.id →
      (bfsDepths nodes edges).lookup key = none →
      treeDepth nodes edges key =
        some (maxReached (bfsDepths nodes edges) + 1)) ∧
    (posLookup (computeTreeLayout [⟨"a"⟩, ⟨"b"⟩]
        [⟨"a", "b"⟩, ⟨"b", "a"⟩] 500 500) "a" = some (60, 250) ∧
      posLookup (computeTreeLayout [⟨"a"⟩, ⟨"b"⟩]
        [⟨"a", "b"⟩, ⟨"b", "a"⟩] 500 500) "b" = some (440, 250) ∧
      ((60 : ℚ), (250 : ℚ)) ≠ ((440 : ℚ), (250 : ℚ)) ∧
      posLookup (computeRadialLayout [⟨"a"⟩, ⟨"b"⟩]
        [⟨"a", "b"⟩, ⟨"b", "a"⟩] 500 500) "a" = some (250, 250) ∧
      posLookup (computeRadialLayout [⟨"a"⟩, ⟨"b"⟩]
        [⟨"a", "b"⟩, ⟨"b", "a"⟩] 500 500) "b" = some (250, 80) ∧
      ((250 : ℝ), (250 : ℝ)) ≠ ((250 : ℝ), (80 : ℝ))) := by
  refine ⟨?_, ?_, ?_, ?_, depthsAll_keys_nodup nodes edges,
    treeDepth_isSome_of_mem nodes edges, ?_, ?_, ?_, ?_, ?_, ?_, ?_⟩
  · intro n rest hfil
    simp only [rootOf, hfil]
  · intro hfil
    simp only [rootOf, hfil]
  · intro r hr
    apply bfsLoop_drains (childrenOf nodes edges)
      ((r :: edges.map LayoutEdge.target).dedup)
    · intro id k hk
      simp only [childrenOf] at hk
      by_cases hmem : (nodes.map LayoutNode.id).contains id
      · rw [if_pos hmem] at hk
        rcases List.mem_map.mp hk with ⟨e, he, rfl⟩
        rw [List.mem_dedup]
        exact List.mem_cons_of_mem _
          (List.mem_map.mpr ⟨e, (List.mem_filter.mp he).1, rfl⟩)
      · rw [if_neg hmem] at hk
        simp at hk
    · exact List.nodup_dedup _
    · simp
    · intro k hk
      simp only [List.map_cons, List.map_nil, List.mem_singleton] at hk
      subst hk
      rw [List.mem_dedup]
      exact List.mem_cons_self _ _
    · have hlen : ((r :: edges.map LayoutEdge.target).dedup).length ≤
          edges.length + 1 := by
        have h1 := List.Sublist.length_le
          (List.dedup_sublist (r :: edges.map LayoutEdge.target))
        simpa using h1
      simp only [List.length_cons, List.length_nil, List.length_map,
        bfsFuel]
      omega
  · intro r hr
    rw [treeDepth_eq_or]
    have hbfs : (bfsDepths nodes edges).lookup r = some 0 := by
      simp only [bfsDepths, hr]
      apply bfsLoop_lookup_mono
      rw [List.lookup_cons]
      simp
    rw [hbfs]
    rfl
  · intro key hmem hnone
    rw [treeDepth_eq_or, hnone, Option.none_or, if_pos hmem]
  · with_unfolding_all decide
  · with_unfolding_all decide
  · with_unfolding_all decide
  · have ha := computeRadialLayout_value [⟨"a"⟩, ⟨"b"⟩]
      [⟨"a", "b"⟩, ⟨"b", "a"⟩] 500 500 "a" 0 (by decide)
      (by with_unfolding_all decide) (by decide)
    rw [ha, if_pos rfl]
    norm_num
  · have hb := computeRadialLayout_value [⟨"a"⟩, ⟨"b"⟩]
      [⟨"a", "b"⟩, ⟨"b", "a"⟩] 500 500 "b" 1 (by decide)
      (by with_unfolding_all decide) (by decide)
    rw [hb]
    have hmd : layoutMaxDepth [⟨"a"⟩, ⟨"b"⟩] [⟨"a", "b"⟩, ⟨"b", "a"⟩] = 1 :=
      by with_unfolding_all decide
    have hlayer : layerAt [⟨"a"⟩, ⟨"b"⟩] [⟨"a", "b"⟩, ⟨"b", "a"⟩] 1 =
        ["b"] := by with_unfolding_all decide
    rw [hmd, hlayer, if_neg one_ne_zero]
    have hidx : (["b"] : List String).indexOf "b" = 0 :=
      List.indexOf_cons_self _ _
    have hlen : (["b"] : List String).length = 1 := rfl
    rw [hidx, hlen]
    have hrad : radialRadius 500 500 1 1 = 170 := by
      simp only [radialRadius, one_ne_zero, if_false]
      norm_num
    have hang : radialAngle 1 0 = -(Real.pi / 2) := by
      simp only [radialAngle]
      push_cast
      ring
    rw [hrad, hang, Real.cos_neg, Real.cos_pi_div_two, Real.sin_neg,
      Real.sin_pi_div_two]
    norm_num
  · intro hc
    have h2 := congrArg Prod.snd hc
    norm_num at h2

/-- Witness for C8: on the cyclic pair `a→b, b→a`, the root fallback picks
`a` (no node has in-degree 0) and `a` receives depth 0. -/
theorem claim_C8_witness :
    rootOf [⟨"a"⟩, ⟨"b"⟩] [⟨"a", "b"⟩, ⟨"b", "a"⟩] = some "a" ∧
    treeDepth [⟨"a"⟩, ⟨"b"⟩] [⟨"a", "b"⟩, ⟨"b", "a"⟩] "a" = some 0 := by
  refine ⟨by with_unfolding_all decide, ?_⟩
  exact (claim_C8_buildLayers [⟨"a"⟩, ⟨"b"⟩]
    [⟨"a", "b"⟩, ⟨"b", "a"⟩]).2.2.2.1 "a" (by with_unfolding_all decide)

/-! ### Force simulation (`simulation.ts`, `runSimulation`)

The engine mutates a private `pos` array of per-node `{x, y, vx, vy}`
objects, created once at start-up and updated in place every frame.  The
heap is modelled explicitly: the store is the list of node objects (object
identity = index) and a snapshot `[...pos]` is a fresh list of references
`[0, …, n−1]` into that store — a shallow copy, exactly as in JS.  Events
carry both the reference list of the delivered snapshot and the values
those references dereference to at delivery time.

`Math.random()` draws are supplied per node index by `randX`/`randY`, and
`Math.sqrt` by `sqrtFn`, both context parameters; `bhFuel` is the
call-stack budget for the unbounded `qtInsert` recursion (`none` from the
Barnes-Hut pass models the stack overflow aborting the frame callback). -/

structure SimNode where
  x : ℚ
  y : ℚ
  vx : ℚ
  vy : ℚ
deriving DecidableEq, Repr

structure SimGraphNode where
  id : String
  xInit : Option ℚ
  yInit : Option ℚ
  fixed : Bool
deriving DecidableEq, Repr

structure SimEdge where
  source : String
  target : String
deriving DecidableEq, Repr

structure SimulationConfig where
  iterations : ℚ
  repulsion : ℚ
  attraction : ℚ
  gravity : ℚ
  damping : ℚ
  integration : ℚ
  tickInterval : ℕ
  barnesHutThreshold : ℕ
  barnesHutTheta : ℚ
deriving DecidableEq, Repr

def DEFAULT_SIMULATION_CONFIG : SimulationConfig :=
  { iterations := 300
    repulsion := 0.5
    attraction := 0.08
    gravity := 0.08
    damping := 0.7
    integration := 0.85
    tickInterval := 8
    barnesHutThreshold := 100
    barnesHutTheta := 0.7 }

/-- Model of the `v || d` fallback idiom on finite JS numbers: `v` is falsy
exactly when it is `0`. -/
def qOr (v d : ℚ) : ℚ := if v = 0 then d else v

structure SimCtx where
  nodes : List SimGraphNode
  edges : List SimEdge
  width : ℚ
  height : ℚ
  cfg : SimulationConfig
  sqrtFn : ℚ → ℚ
  randX : ℕ → ℚ
  randY : ℕ → ℚ
  bhFuel : ℕ

/-- Ideal spring length `k = sqrt(width·height / max(n, 1))`. -/
def SimCtx.k (c : SimCtx) : ℚ :=
  c.sqrtFn (c.width * c.height / max (c.nodes.length : ℚ) 1)

def SimCtx.repulsionK (c : SimCtx) : ℚ := c.k * c.k * c.cfg.repulsion

def SimCtx.centerX (c : SimCtx) : ℚ := c.width / 2

def SimCtx.centerY (c : SimCtx) : ℚ := c.height / 2

def SimCtx.useBarnesHut (c : SimCtx) : Bool :=
  c.nodes.length > c.cfg.barnesHutThreshold

/-- Initial `pos` array: provided positions, else random scatter around the
canvas center; velocity always zero. -/
def initPos (c : SimCtx) : List SimNode :=
  (c.nodes.enum).map (fun p =>
    { x := p.2.xInit.getD
        (c.centerX + (c.randX p.1 - 0.5) * c.width * 0.5)
      y := p.2.yInit.getD
        (c.centerY + (c.randY p.1 - 0.5) * c.height * 0.5)
      vx := 0
      vy := 0 })

/-- The `idx` record: node id → position index, later entries winning. -/
def idxOf (nodes : List SimGraphNode) (id : String) : Option ℕ :=
  (nodes.enum).foldl
    (fun acc p => if p.2.id = id then some p.1 else acc) none

/-- Iteration order of the `O(n²)` double loop of
`applyRepulsionBruteForce`. -/
def pairList (n : ℕ) : List (ℕ × ℕ) :=
  (List.range n).flatMap (fun i =>
    ((List.range n).filter (fun j => i < j)).map (fun j => (i, j)))

/-- One inner-loop body of `applyRepulsionBruteForce`. -/
def repelPair (repulsion alpha : ℚ) (st : List SimNode) (ij : ℕ × ℕ) :
    List SimNode :=
  match st.get? ij.1, st.get? ij.2 with
  | some pa, some pb =>
      let dx := qOr (pb.x - pa.x) 0.01
      let dy := qOr (pb.y - pa.y) 0.01
      let dist2 := qOr (dx * dx + dy * dy) 1
      let force := repulsion / dist2 * alpha
      let st1 := st.set ij.1
        { pa with vx := pa.vx - dx * force, vy := pa.vy - dy * force }
      match st1.get? ij.2 with
      | some pb2 => st1.set ij.2
          { pb2 with vx := pb2.vx + dx * force, vy := pb2.vy + dy * force }
      | none => st1
  | _, _ => st

def applyRepulsionBruteForce (repulsion alpha : ℚ)
    (st : List SimNode) : List SimNode :=
  (pairList st.length).foldl (repelPair repulsion alpha) st

/-- Fold for the running minimum starting from `Infinity` (`none` plays the
`Infinity` seed: the first element always replaces it). -/
def boundsMin (f : SimNode → ℚ) (l : List SimNode) : Option ℚ :=
  l.foldl
    (fun acc p =>
      match acc with
      | none => some (f p)
      | some m => some (if f p < m then f p else m)) none

def boundsMax (f : SimNode → ℚ) (l : List SimNode) : Option ℚ :=
  l.foldl
    (fun acc p =>
      match acc with
      | none => some (f p)
      | some m => some (if f p > m then f p else m)) none

mutual

/-- Embedding of `applyForceFromNode(pos, i, node, repulsion, alpha,
theta)`: updates only `pos[i].vx/vy`, threading the node record through the
traversal. -/
def applyForceFromNode (p : SimNode) (i : ℕ) (t : QT)
    (repulsion alpha theta : ℚ) : SimNode :=
  match t with
  | .mk tx0 _ tx1 _ tcx tcy tmass tbody tchildren =>
    if tmass = 0 then p
    else
      let dx := qOr (tcx - p.x) 0.01
      let dy := qOr (tcy - p.y) 0.01
      let dist2 := qOr (dx * dx + dy * dy) 1
      -- Leaf with a single body: direct calculation.
      if tbody ≥ 0 then
        if tbody ≠ (i : ℤ) then
          let force := repulsion / dist2 * alpha
          { p with vx := p.vx - dx * force, vy := p.vy - dy * force }
        else p
      else
        -- Far enough to approximate?
        let size := tx1 - tx0
        if size * size / dist2 < theta * theta then
          let force := repulsion * tmass / dist2 * alpha
          { p with vx := p.vx - dx * force, vy := p.vy - dy * force }
        else
          match tchildren with
          | .nullC => p
          | .quad c0 c1 c2 c3 =>
              applyForceSlot
                (applyForceSlot
                  (applyForceSlot
                    (applyForceSlot p i c0 repulsion alpha theta)
                    i c1 repulsion alpha theta)
                  i c2 repulsion alpha theta)
                i c3 repulsion alpha theta

def applyForceSlot (p : SimNode) (i : ℕ) (s : QSlot)
    (repulsion alpha theta : ℚ) : SimNode :=
  match s with
  | .nullS => p
  | .node t => applyForceFromNode p i t repulsion alpha theta

end

/-- Embedding of `applyRepulsionBarnesHut`: bounds, padded root box, tree
build, then the per-body traversal.  `none` models the stack overflow of an
unbounded `qtInsert` recursion (the frame callback dies before mutating any
state). -/
def applyRepulsionBarnesHut (bhFuel : ℕ) (repulsion alpha theta : ℚ)
    (st : List SimNode) : Option (List SimNode) :=
  match boundsMin SimNode.x st, boundsMin SimNode.y st,
      boundsMax SimNode.x st, boundsMax SimNode.y st with
  | some minX, some minY, some maxX, some maxY =>
      let root := createQTNode (minX - 1) (minY - 1) (maxX + 1) (maxY + 1)
      match qtBuild bhFuel root (st.map (fun p => (p.x, p.y))) with
      | none => none
      | some tree =>
          some ((st.enum).map (fun p =>
            applyForceFromNode p.2 p.1 tree repulsion alpha theta))
  | _, _, _, _ => some st

/-- One edge of the spring-attraction loop (dangling ids are skipped; a
self-edge reads the source object again after the first mutation, as the
sequential JS mutations do). -/
def applyEdge (c : SimCtx) (alpha : ℚ) (st : List SimNode) (e : SimEdge) :
    List SimNode :=
  match idxOf c.nodes e.source, idxOf c.nodes e.target with
  | some si, some ti =>
      match st.get? si, st.get? ti with
      | some s, some t =>
          let dx := t.x - s.x
          let dy := t.y - s.y
          let dist := qOr (c.sqrtFn (dx * dx + dy * dy)) 1
          let force := (dist - c.k) * c.cfg.attraction * alpha
          let fx := dx / dist * force
          let fy := dy / dist * force
          let st1 := st.set si { s with vx := s.vx + fx, vy := s.vy + fy }
          match st1.get? ti with
          | some t2 =>
              st1.set ti { t2 with vx := t2.vx - fx, vy := t2.vy - fy }
          | none => st1
      | _, _ => st
  | _, _ => st

def applyAttraction (c : SimCtx) (alpha : ℚ) (st : List SimNode) :
    List SimNode :=
  c.edges.foldl (applyEdge c alpha) st

/-- Gravity, Euler integration and damping for one node — or, for a fixed
node, the snap back to its pinned coordinates with zero velocity. -/
def integrateNode (c : SimCtx) (alpha : ℚ) (p : SimNode)
    (n : SimGraphNode) : SimNode :=
  if n.fixed then
    { x := n.xInit.getD p.x, y := n.yInit.getD p.y, vx := 0, vy := 0 }
  else
    let vx1 := p.vx + (c.centerX - p.x) * c.cfg.gravity * alpha
    let vy1 := p.vy + (c.centerY - p.y) * c.cfg.gravity * alpha
    { x := p.x + vx1 * c.cfg.integration
      y := p.y + vy1 * c.cfg.integration
      vx := vx1 * c.cfg.damping
      vy := vy1 * c.cfg.damping }

def applyGravityIntegrate (c : SimCtx) (alpha : ℚ) (st : List SimNode) :
    List SimNode :=
  (st.enum).map (fun p =>
    match c.nodes.get? p.1 with
    | some n => integrateNode c alpha p.2 n
    | none => p.2)

/-- Cooling schedule `alpha = max(0, 1 − frame/iterations)`. -/
def alphaOf (c : SimCtx) (frame : ℕ) : ℚ :=
  max 0 (1 - (frame : ℚ) / c.cfg.iterations)

/-- One physics step of `step()` (the part guarded by `alpha > 0`):
repulsion (Barnes-Hut above the threshold, brute force otherwise), edge
attraction, then gravity + integration + damping with fixed-node
handling. -/
def stepOnce (c : SimCtx) (alpha : ℚ) (st : List SimNode) :
    Option (List SimNode) :=
  match
    (if c.useBarnesHut then
      applyRepulsionBarnesHut c.bhFuel c.repulsionK alpha
        c.cfg.barnesHutTheta st
    else some (applyRepulsionBruteForce c.repulsionK alpha st)) with
  | none => none
  | some st1 => some (applyGravityIntegrate c alpha (applyAttraction c alpha st1))

/-! #### Scheduler model

`runSimulation` schedules `step` through `requestAnimationFrame` and keeps
the latest handle in `animId`; the returned cancel closure runs
`cancelAnimationFrame(animId)`.  At every instant at most one callback of
this engine is pending and `animId` is its handle, so the pending callback
is modelled as a single flag.  `Cmd.frame` fires the pending callback (if
any); `Cmd.cancel` runs the cancel closure, which removes the pending
callback. -/

inductive Ev : Type where
  | tick (refs : List ℕ) (vals : List SimNode)
  | endEv (refs : List ℕ) (vals : List SimNode)
deriving DecidableEq, Repr

def Ev.refs : Ev → List ℕ
  | .tick r _ => r
  | .endEv r _ => r

def Ev.vals : Ev → List SimNode
  | .tick _ v => v
  | .endEv _ v => v

structure EngineState where
  store : List SimNode
  frame : ℕ
  pending : Bool
deriving DecidableEq, Repr

/-- A snapshot `[...pos]` is a fresh array holding the same references. -/
def snapshotRefs (st : List SimNode) : List ℕ := List.range st.length

/-- Values observable through a reference list at a given store state. -/
def viewRefs (refs : List ℕ) (store : List SimNode) : List SimNode :=
  refs.filterMap store.get?

def initState (c : SimCtx) : EngineState :=
  { store := initPos c, frame := 0, pending := true }

def fireFrame (c : SimCtx) (s : EngineState) : EngineState × List Ev :=
  if s.pending then
    let alpha := alphaOf c s.frame
    if alpha ≤ 0 then
      ({ s with pending := false },
        [.tick (snapshotRefs s.store) (viewRefs (snapshotRefs s.store) s.store),
         .endEv (snapshotRefs s.store)
           (viewRefs (snapshotRefs s.store) s.store)])
    else
      match stepOnce c alpha s.store with
      | none => ({ s with pending := false }, [])
      | some st2 =>
          ({ store := st2, frame := s.frame + 1, pending := true },
            if (s.frame + 1) % c.cfg.tickInterval = 0 then
              [.tick (snapshotRefs st2) (viewRefs (snapshotRefs st2) st2)]
            else [])
  else (s, [])

def doCancel (s : EngineState) : EngineState := { s with pending := false }

inductive Cmd : Type where
  | frame
  | cancel
deriving DecidableEq, Repr

def runCmds (c : SimCtx) : EngineState → List Cmd → EngineState × List Ev
  | s, [] => (s, [])
  | s, cmd :: rest =>
      let r1 : EngineState × List Ev :=
        match cmd with
        | .frame => fireFrame c s
        | .cancel => (doCancel s, [])
      let r2 := runCmds c r1.1 rest
      (r2.1, r1.2 ++ r2.2)

/-- Shared concrete context builder for witnesses and counterexamples
(default config, zero random stream, generous stack budget). -/
def mkCtx (nodes : List SimGraphNode) (edges : List SimEdge)
    (w h : ℚ) (sq : ℚ → ℚ) : SimCtx :=
  { nodes := nodes
    edges := edges
    width := w
    height := h
    cfg := DEFAULT_SIMULATION_CONFIG
    sqrtFn := sq
    randX := fun _ => 0
    randY := fun _ => 0
    bhFuel := 1000 }

theorem fireFrame_not_pending (c : SimCtx) (s : EngineState)
    (h : s.pending = false) : fireFrame c s = (s, []) := by
  simp [fireFrame, h]

/-- A halted engine (no pending callback) never changes state or emits an
event again, whatever frames and cancels follow. -/
theorem runCmds_halted (c : SimCtx) :
    ∀ (cmds : List Cmd) (s : EngineState), s.pending = false →
      runCmds c s cmds = (s, []) := by
  intro cmds
  induction cmds with
  | nil => intro s h; rfl
  | cons cmd rest ih =>
      intro s h
      match cmd with
      | .frame =>
          simp only [runCmds, fireFrame_not_pending c s h]
          rw [ih s h]
          rfl
      | .cancel =>
          have hs : doCancel s = s := by
            cases s
            simp only [doCancel] at *
            simp [h]
          simp only [runCmds, hs]
          rw [ih s h]
          rfl

/-- Claim C9: cancellation safety.  Running the cancel closure clears the
pending callback; afterwards no `onTick` or `onEnd` event is ever emitted
in any subsequent scheduler frame (`onEnd` in particular is never invoked),
the engine state never changes again, and a second cancel is a no-op. -/
theorem claim_C9_cancel (c : SimCtx) (s : EngineState) (cmds : List Cmd) :
    (runCmds c (doCancel s) cmds).2 = [] ∧
    (runCmds c (doCancel s) cmds).1 = doCancel s ∧
    doCancel (doCancel s) = doCancel s := by
  have h := runCmds_halted c cmds (doCancel s) rfl
  exact ⟨by rw [h], by rw [h], rfl⟩

/-- Context of claim C3: `runSimulation([], [], 500, 500, …)` with the
default config (`k = sqrt(250000) = 500`; no randomness is consumed). -/
def emptyCtx : SimCtx := mkCtx [] [] 500 500 (fun _ => 500)

/-- Claim C3 (counterexample): with an empty node list `runSimulation` does
not call `onEnd` immediately and does schedule steps: the initial state has
a pending frame callback, the first 300 scheduler frames emit no `onEnd`
event at all, and `onTick([])` fires (many times) before any `onEnd`. -/
theorem claim_C3_counterexample :
    (initState emptyCtx).pending = true ∧
    ((runCmds emptyCtx (initState emptyCtx)
        (List.replicate 300 Cmd.frame)).2.all
      (fun ev => match ev with | .endEv _ _ => false | _ => true)) = true ∧
    Ev.tick [] [] ∈ (runCmds emptyCtx (initState emptyCtx)
      (List.replicate 300 Cmd.frame)).2 := by
  refine ⟨rfl, ?_, ?_⟩
  · with_unfolding_all decide
  · with_unfolding_all decide

/-- Claim C3 (amended): with an empty node list the engine runs its normal
loop — it schedules a frame callback, `onTick([])` fires every 8th frame
(37 interval ticks), and only on the 301st frame (`alpha = 0`) does it
deliver the final `onTick([])` and `onEnd([])` and stop. -/
theorem claim_C3_amended :
    (runCmds emptyCtx (initState emptyCtx)
        (List.replicate 301 Cmd.frame)).2 =
      List.replicate 38 (Ev.tick [] []) ++ [Ev.endEv [] []] ∧
    (runCmds emptyCtx (initState emptyCtx)
        (List.replicate 301 Cmd.frame)).1.pending = false := by
  constructor
  · with_unfolding_all decide
  · with_unfolding_all decide

/-! #### Store-length invariants: every phase updates node objects in place
and never grows or shrinks the `pos` array. -/

theorem foldl_length_invariant {β : Type}
    (f : List SimNode → β → List SimNode) (l : List β)
    (hf : ∀ st x, (f st x).length = st.length) :
    ∀ st : List SimNode, (l.foldl f st).length = st.length := by
  induction l with
  | nil => intro st; rfl
  | cons x l ih =>
      intro st
      rw [List.foldl_cons, ih (f st x), hf st x]

theorem repelPair_length (repulsion alpha : ℚ) (st : List SimNode)
    (ij : ℕ × ℕ) : (repelPair repulsion alpha st ij).length = st.length := by
  simp only [repelPair]
  split
  · split <;> simp [List.length_set]
  · rfl

theorem applyRepulsionBruteForce_length (repulsion alpha : ℚ)
    (st : List SimNode) :
    (applyRepulsionBruteForce repulsion alpha st).length = st.length :=
  foldl_length_invariant _ _ (repelPair_length repulsion alpha) st

theorem applyRepulsionBarnesHut_length (bhFuel : ℕ)
    (repulsion alpha theta : ℚ) (st st2 : List SimNode)
    (h : applyRepulsionBarnesHut bhFuel repulsion alpha theta st = some st2) :
    st2.length = st.length := by
  simp only [applyRepulsionBarnesHut] at h
  cases h1 : boundsMin SimNode.x st <;> rw [h1] at h <;>
    cases h2 : boundsMin SimNode.y st <;> rw [h2] at h <;>
    cases h3 : boundsMax SimNode.x st <;> rw [h3] at h <;>
    cases h4 : boundsMax SimNode.y st <;> rw [h4] at h <;>
    simp only [] at h
  all_goals try (cases h; rfl)
  cases h5 : qtBuild bhFuel _ (st.map fun p => (p.x, p.y)) <;>
    rw [h5] at h
  · cases h
  · cases h
    simp

theorem applyEdge_length (c : SimCtx) (alpha : ℚ) (st : List SimNode)
    (e : SimEdge) : (applyEdge c alpha st e).length = st.length := by
  simp only [applyEdge]
  split
  · split
    · split <;> simp [List.length_set]
    · rfl
  · rfl

theorem applyAttraction_length (c : SimCtx) (alpha : ℚ)
    (st : List SimNode) :
    (applyAttraction c alpha st).length = st.length :=
  foldl_length_invariant _ _ (applyEdge_length c alpha) st

theorem applyGravityIntegrate_length (c : SimCtx) (alpha : ℚ)
    (st : List SimNode) :
    (applyGravityIntegrate c alpha st).length = st.length := by
  simp [applyGravityIntegrate]

theorem stepOnce_length (c : SimCtx) (alpha : ℚ) (st st2 : List SimNode)
    (h : stepOnce c alpha st = some st2) : st2.length = st.length := by
  simp only [stepOnce] at h
  by_cases hbh : c.useBarnesHut
  · rw [if_pos hbh] at h
    cases h1 : applyRepulsionBarnesHut c.bhFuel c.repulsionK alpha
        c.cfg.barnesHutTheta st <;> rw [h1] at h
    · cases h
    · cases h
      rw [applyGravityIntegrate_length, applyAttraction_length,
        applyRepulsionBarnesHut_length _ _ _ _ _ _ h1]
  · rw [if_neg hbh] at h
    simp only [] at h
    cases h
    rw [applyGravityIntegrate_length, applyAttraction_length,
      applyRepulsionBruteForce_length]

theorem initPos_length (c : SimCtx) : (initPos c).length = c.nodes.length := by
  simp [initPos]

theorem fireFrame_eq_terminal (c : SimCtx) (s : EngineState)
    (hp : s.pending = true) (ha : alphaOf c s.frame ≤ 0) :
    fireFrame c s =
      ({ s with pending := false },
        [.tick (snapshotRefs s.store) (viewRefs (snapshotRefs s.store) s.store),
         .endEv (snapshotRefs s.store)
           (viewRefs (snapshotRefs s.store) s.store)]) := by
  simp only [fireFrame]
  rw [if_pos hp, if_pos ha]

theorem fireFrame_eq_crash (c : SimCtx) (s : EngineState)
    (hp : s.pending = true) (ha : ¬ alphaOf c s.frame ≤ 0)
    (hst : stepOnce c (alphaOf c s.frame) s.store = none) :
    fireFrame c s = ({ s with pending := false }, []) := by
  simp only [fireFrame]
  rw [if_pos hp, if_neg ha, hst]

theorem fireFrame_eq_step (c : SimCtx) (s : EngineState) (st2 : List SimNode)
    (hp : s.pending = true) (ha : ¬ alphaOf c s.frame ≤ 0)
    (hst : stepOnce c (alphaOf c s.frame) s.store = some st2) :
    fireFrame c s =
      ({ store := st2, frame := s.frame + 1, pending := true },
        if (s.frame + 1) % c.cfg.tickInterval = 0 then
          [.tick (snapshotRefs st2) (viewRefs (snapshotRefs st2) st2)]
        else []) := by
  simp only [fireFrame]
  rw [if_pos hp, if_neg ha, hst]

theorem fireFrame_store_length (c : SimCtx) (s : EngineState) :
    (fireFrame c s).1.store.length = s.store.length ∧
    ∀ ev ∈ (fireFrame c s).2, Ev.refs ev = List.range s.store.length := by
  by_cases hp : s.pending
  · by_cases ha : alphaOf c s.frame ≤ 0
    · rw [fireFrame_eq_terminal c s hp ha]
      refine ⟨rfl, ?_⟩
      intro ev hev
      rcases List.mem_cons.mp hev with h1 | h1
      · subst h1; rfl
      · rcases List.mem_cons.mp h1 with h2 | h2
        · subst h2; rfl
        · simp at h2
    · cases hst : stepOnce c (alphaOf c s.frame) s.store with
      | none =>
          rw [fireFrame_eq_crash c s hp ha hst]
          exact ⟨rfl, by intro ev hev; simp at hev⟩
      | some st2 =>
          rw [fireFrame_eq_step c s st2 hp ha hst]
          have hlen := stepOnce_length c _ _ _ hst
          refine ⟨hlen, ?_⟩
          intro ev hev
          by_cases htick : (s.frame + 1) % c.cfg.tickInterval = 0
          · rw [if_pos htick] at hev
            rcases List.mem_cons.mp hev with h1 | h1
            · subst h1
              simp [Ev.refs, snapshotRefs, hlen]
            · simp at h1
          · rw [if_neg htick] at hev
            simp at hev
  · rw [fireFrame_not_pending c s (by simpa using hp)]
    exact ⟨rfl, by intro ev hev; simp at hev⟩

theorem runCmds_refs_invariant (c : SimCtx) :
    ∀ (cmds : List Cmd) (s : EngineState),
      (runCmds c s cmds).1.store.length = s.store.length ∧
      ∀ ev ∈ (runCmds c s cmds).2,
        Ev.refs ev = List.range s.store.length := by
  intro cmds
  induction cmds with
  | nil => intro s; exact ⟨rfl, by intro ev hev; simp [runCmds] at hev⟩
  | cons cmd rest ih =>
      intro s
      match cmd with
      | .frame =>
          have hf := fireFrame_store_length c s
          have hr := ih (fireFrame c s).1
          simp only [runCmds]
          refine ⟨by rw [hr.1, hf.1], ?_⟩
          intro ev hev
          rcases List.mem_append.mp hev with h1 | h1
          · exact hf.2 ev h1
          · rw [hr.2 ev h1, hf.1]
      | .cancel =>
          have hr := ih (doCancel s)
          simp only [runCmds]
          refine ⟨hr.1, ?_⟩
          intro ev hev
          rcases List.mem_append.mp hev with h1 | h1
          · simp at h1
          · exact hr.2 ev h1

/-- Claim C4 (amended): every array delivered to `onTick`/`onEnd` is a
shallow copy — a fresh array whose elements are the references `0 … n−1`
into the engine's internal per-node object store, one per input node; the
delivered elements are therefore the engine's own mutable node objects
(carrying `vx`/`vy`), not value copies. -/
theorem claim_C4_amended (c : SimCtx) (cmds : List Cmd) :
    ∀ ev ∈ (runCmds c (initState c) cmds).2,
      Ev.refs ev = List.range c.nodes.length := by
  intro ev hev
  have h := (runCmds_refs_invariant c cmds (initState c)).2 ev hev
  rw [h]
  simp [initState, initPos_length]

/-- Context of claim C4's counterexample: one free node seeded at `(0, 0)`
on a 500×500 canvas (`k = sqrt(250000) = 500`; with a single node and no
edges, no other use of `Math.sqrt` occurs). -/
def oneNodeCtx : SimCtx :=
  mkCtx [⟨"a", some 0, some 0, false⟩] [] 500 500 (fun _ => 500)

/-- Claim C4 (counterexample): the snapshot delivered by the `onTick` at
frame 8 holds the reference to the engine's single node object; one more
simulation step changes the `x`/`y` observable through that very snapshot,
and the delivered element exposes a nonzero engine-internal `vx`.  So the
delivered arrays are not isolating value copies. -/
theorem claim_C4_counterexample :
    ((runCmds oneNodeCtx (initState oneNodeCtx)
        (List.replicate 8 Cmd.frame)).2.map Ev.refs = [[0]]) ∧
    viewRefs [0] (runCmds oneNodeCtx (initState oneNodeCtx)
        (List.replicate 8 Cmd.frame)).1.store ≠
      viewRefs [0] (runCmds oneNodeCtx (initState oneNodeCtx)
        (List.replicate 9 Cmd.frame)).1.store ∧
    ((runCmds oneNodeCtx (initState oneNodeCtx)
        (List.replicate 8 Cmd.frame)).2.map
      (fun ev => (Ev.vals ev).map SimNode.vx) ≠ [[0]]) := by
  refine ⟨?_, ?_, ?_⟩
  · with_unfolding_all decide
  · with_unfolding_all decide
  · with_unfolding_all decide

set_option maxRecDepth 10000 in
/-- Witness for C4 (amended): the one event delivered at frame 8 of the
one-node run is a member of the emitted event list, and its reference
array is exactly `[0]` — the full reference list into the internal
store. -/
theorem claim_C4_witness :
    (Ev.tick [0]
        [⟨4162119044153928061402735495843217 /
            18539428710937500000000000000000,
          4162119044153928061402735495843217 /
            18539428710937500000000000000000,
          163755268411179605854926218872207 /
            9269714355468750000000000000000,
          163755268411179605854926218872207 /
            9269714355468750000000000000000⟩] ∈
      (runCmds oneNodeCtx (initState oneNodeCtx)
        (List.replicate 8 Cmd.frame)).2) ∧
    Ev.refs (Ev.tick [0]
        [⟨4162119044153928061402735495843217 /
            18539428710937500000000000000000,
          4162119044153928061402735495843217 /
            18539428710937500000000000000000,
          163755268411179605854926218872207 /
            9269714355468750000000000000000,
          163755268411179605854926218872207 /
            9269714355468750000000000000000⟩]) =
      List.range oneNodeCtx.nodes.length := by
  have hlist : (runCmds oneNodeCtx (initState oneNodeCtx)
      (List.replicate 8 Cmd.frame)).2 =
      [Ev.tick [0]
        [⟨4162119044153928061402735495843217 /
            18539428710937500000000000000000,
          4162119044153928061402735495843217 /
            18539428710937500000000000000000,
          163755268411179605854926218872207 /
            9269714355468750000000000000000,
          163755268411179605854926218872207 /
            9269714355468750000000000000000⟩]] := by
    with_unfolding_all rfl
  have hmem : Ev.tick [0]
        [⟨4162119044153928061402735495843217 /
            18539428710937500000000000000000,
          4162119044153928061402735495843217 /
            18539428710937500000000000000000,
          163755268411179605854926218872207 /
            9269714355468750000000000000000,
          163755268411179605854926218872207 /
            9269714355468750000000000000000⟩] ∈
      (runCmds oneNodeCtx (initState oneNodeCtx)
        (List.replicate 8 Cmd.frame)).2 := by
    rw [hlist]
    exact List.mem_singleton_self _
  exact ⟨hmem,
    claim_C4_amended oneNodeCtx (List.replicate 8 Cmd.frame) _ hmem⟩

/-! #### Fixed-node invariant (claim C5) -/

/-- Dereferencing the full reference list of a store yields the store. -/
theorem viewRefs_range (st : List SimNode) :
    viewRefs (List.range st.length) st = st := by
  simp only [viewRefs]
  induction st with
  | nil => rfl
  | cons a st ih =>
      rw [List.length_cons, List.range_succ_eq_map, List.filterMap_cons]
      simp only [List.get?_cons_zero, Option.some.injEq]
      rw [List.filterMap_map]
      have : (fun i => (a :: st).get? (Nat.succ i)) = st.get? := by
        funext i
        rfl
      rw [Function.comp_def]
      simp only [List.get?_cons_succ]
      exact congrArg (a :: ·) ih

theorem initPos_get_fixed (c : SimCtx) (j : ℕ) (nd : SimGraphNode)
    (x0 y0 : ℚ) (hj : c.nodes.get? j = some nd) (hfx : nd.fixed = true)
    (hx : nd.xInit = some x0) (hy : nd.yInit = some y0) :
    (initPos c).get? j = some ⟨x0, y0, 0, 0⟩ := by
  simp only [initPos]
  rw [List.get?_map, List.get?_enum, hj]
  simp [hx, hy]

theorem applyGravityIntegrate_get_fixed (c : SimCtx) (alpha : ℚ)
    (st : List SimNode) (j : ℕ) (nd : SimGraphNode) (x0 y0 : ℚ)
    (hj : c.nodes.get? j = some nd) (hfx : nd.fixed = true)
    (hx : nd.xInit = some x0) (hy : nd.yInit = some y0)
    (hlt : j < st.length) :
    (applyGravityIntegrate c alpha st).get? j = some ⟨x0, y0, 0, 0⟩ := by
  simp only [applyGravityIntegrate]
  rw [List.get?_map, List.get?_enum]
  cases hp : st.get? j with
  | none =>
      rw [List.get?_eq_none] at hp
      omega
  | some p =>
      have hj2 : c.nodes[j]? = some nd := by
        rw [← List.get?_eq_getElem?]
        exact hj
      simp [integrateNode, hj2, hfx, hx, hy]

theorem stepOnce_get_fixed (c : SimCtx) (alpha : ℚ)
    (st st2 : List SimNode) (j : ℕ) (nd : SimGraphNode) (x0 y0 : ℚ)
    (hj : c.nodes.get? j = some nd) (hfx : nd.fixed = true)
    (hx : nd.xInit = some x0) (hy : nd.yInit = some y0)
    (hlen : st.length = c.nodes.length)
    (hst : stepOnce c alpha st = some st2) :
    st2.get? j = some ⟨x0, y0, 0, 0⟩ := by
  have hjlt : j < c.nodes.length := by
    by_contra hc
    rw [List.get?_eq_none.mpr (by omega)] at hj
    cases hj
  simp only [stepOnce] at hst
  by_cases hbh : c.useBarnesHut
  · rw [if_pos hbh] at hst
    cases h1 : applyRepulsionBarnesHut c.bhFuel c.repulsionK alpha
        c.cfg.barnesHutTheta st with
    | none => rw [h1] at hst; cases hst
    | some st1 =>
        rw [h1] at hst
        cases hst
        apply applyGravityIntegrate_get_fixed c alpha _ j nd x0 y0 hj hfx hx hy
        rw [applyAttraction_length,
          applyRepulsionBarnesHut_length _ _ _ _ _ _ h1, hlen]
        exact hjlt
  · rw [if_neg hbh] at hst
    simp only [] at hst
    cases hst
    apply applyGravityIntegrate_get_fixed c alpha _ j nd x0 y0 hj hfx hx hy
    rw [applyAttraction_length, applyRepulsionBruteForce_length, hlen]
    exact hjlt

/-- Claim C5: fixed-node invariant.  A node marked `fixed` with supplied
initial coordinates `(x0, y0)` reads exactly `(x0, y0)` with zero velocity
in the engine store after any command sequence, and in particular in every
snapshot delivered by `onTick` and in the final `onEnd` snapshot — whatever
the edges, the other nodes, the random seeds, `Math.sqrt`, and the forces
of any step. -/
theorem claim_C5_fixed_node (c : SimCtx) (j : ℕ) (nd : SimGraphNode)
    (x0 y0 : ℚ) (hj : c.nodes.get? j = some nd) (hfx : nd.fixed = true)
    (hx : nd.xInit = some x0) (hy : nd.yInit = some y0) (cmds : List Cmd) :
    ((runCmds c (initState c) cmds).1.store.get? j =
      some ⟨x0, y0, 0, 0⟩) ∧
    ∀ ev ∈ (runCmds c (initState c) cmds).2,
      (Ev.vals ev).get? j = some ⟨x0, y0, 0, 0⟩ := by
  suffices h : ∀ (cmds : List Cmd) (s : EngineState),
      s.store.length = c.nodes.length →
      s.store.get? j = some ⟨x0, y0, 0, 0⟩ →
      ((runCmds c s cmds).1.store.length = c.nodes.length ∧
        (runCmds c s cmds).1.store.get? j = some ⟨x0, y0, 0, 0⟩) ∧
      ∀ ev ∈ (runCmds c s cmds).2,
        (Ev.vals ev).get? j = some ⟨x0, y0, 0, 0⟩ by
    have h0 := h cmds (initState c) (by simp [initState, initPos_length])
      (initPos_get_fixed c j nd x0 y0 hj hfx hx hy)
    exact ⟨h0.1.2, h0.2⟩
  intro cmds
  induction cmds with
  | nil =>
      intro s hlen hpin
      exact ⟨⟨hlen, hpin⟩, by intro ev hev; simp [runCmds] at hev⟩
  | cons cmd rest ih =>
      intro s hlen hpin
      match cmd with
      | .cancel =>
          have hr := ih (doCancel s) hlen hpin
          simp only [runCmds]
          refine ⟨hr.1, ?_⟩
          intro ev hev
          rcases List.mem_append.mp hev with h1 | h1
          · simp at h1
          · exact hr.2 ev h1
      | .frame =>
          have hfire : (fireFrame c s).1.store.length = c.nodes.length ∧
              (fireFrame c s).1.store.get? j = some ⟨x0, y0, 0, 0⟩ ∧
              ∀ ev ∈ (fireFrame c s).2,
                (Ev.vals ev).get? j = some ⟨x0, y0, 0, 0⟩ := by
            by_cases hp : s.pending
            · by_cases ha : alphaOf c s.frame ≤ 0
              · rw [fireFrame_eq_terminal c s hp ha]
                refine ⟨hlen, hpin, ?_⟩
                intro ev hev
                have hview : viewRefs (snapshotRefs s.store) s.store =
                    s.store := viewRefs_range s.store
                rcases List.mem_cons.mp hev with h1 | h1
                · subst h1
                  simpa [Ev.vals, hview] using hpin
                · rcases List.mem_cons.mp h1 with h2 | h2
                  · subst h2
                    simpa [Ev.vals, hview] using hpin
                  · simp at h2
              · cases hst : stepOnce c (alphaOf c s.frame) s.store with
                | none =>
                    rw [fireFrame_eq_crash c s hp ha hst]
                    exact ⟨hlen, hpin, by intro ev hev; simp at hev⟩
                | some st2 =>
                    rw [fireFrame_eq_step c s st2 hp ha hst]
                    have hlen2 : st2.length = c.nodes.length := by
                      rw [stepOnce_length c _ _ _ hst, hlen]
                    have hpin2 : st2.get? j = some ⟨x0, y0, 0, 0⟩ :=
                      stepOnce_get_fixed c _ _ _ j nd x0 y0 hj hfx hx hy
                        hlen hst
                    refine ⟨hlen2, hpin2, ?_⟩
                    intro ev hev
                    by_cases htick : (s.frame + 1) % c.cfg.tickInterval = 0
                    · rw [if_pos htick] at hev
                      rcases List.mem_cons.mp hev with h1 | h1
                      · subst h1
                        simpa [Ev.vals, snapshotRefs, viewRefs_range st2]
                          using hpin2
                      · simp at h1
                    · rw [if_neg htick] at hev
                      simp at hev
            · rw [fireFrame_not_pending c s (by simpa using hp)]
              exact ⟨hlen, hpin, by intro ev hev; simp at hev⟩
          have hr := ih (fireFrame c s).1 hfire.1 hfire.2.1
          simp only [runCmds]
          refine ⟨hr.1, ?_⟩
          intro ev hev
          rcases List.mem_append.mp hev with h1 | h1
          · exact hfire.2.2 ev h1
          · exact hr.2 ev h1

/-- Witness context for C5: a fixed node pinned at `(100, 200)` pulled by
an edge toward a free node. -/
def fixedCtx : SimCtx :=
  mkCtx [⟨"a", some 100, some 200, true⟩, ⟨"b", some 400, some 300, false⟩]
    [⟨"a", "b"⟩] 800 500 (fun _ => 0)

/-- Witness for C5: after 10 scheduler frames the fixed node still reads
exactly `(100, 200)` with zero velocity. -/
theorem claim_C5_witness :
    fixedCtx.nodes.get? 0 = some ⟨"a", some 100, some 200, true⟩ ∧
    (runCmds fixedCtx (initState fixedCtx)
        (List.replicate 10 Cmd.frame)).1.store.get? 0 =
      some ⟨100, 200, 0, 0⟩ :=
  ⟨rfl,
    (claim_C5_fixed_node fixedCtx 0 ⟨"a", some 100, some 200, true⟩
      100 200 rfl rfl rfl rfl (List.replicate 10 Cmd.frame)).1⟩

/-! ### Termination of the quadtree build (claim C10)

`qtInsert` recurses without any depth bound; the recursion terminates
exactly because two distinct points eventually fall into different
quadrants once the cells are smaller than their coordinate distance.  The
development below proves: inserting a body whose position differs from
every body already in a well-formed tree succeeds with *some* fuel, and the
insertion preserves well-formedness — hence the whole per-step build
terminates for pairwise-distinct positions. -/

/-- Quadrant index chosen by `qtInsert` for a point. -/
def quadrantOf (x0 y0 x1 y1 x y : ℚ) : ℕ :=
  (if x > (x0 + x1) / 2 then 1 else 0) + (if y > (y0 + y1) / 2 then 2 else 0)

/-- Bounding box of quadrant `q`, with the exact formulas of `qtInsert`. -/
def quadBox (x0 y0 x1 y1 : ℚ) (q : ℕ) : ℚ × ℚ × ℚ × ℚ :=
  (if q &&& 1 = 1 then (x0 + x1) / 2 else x0,
   if q &&& 2 = 2 then (y0 + y1) / 2 else y0,
   if q &&& 1 = 1 then x1 else (x0 + x1) / 2,
   if q &&& 2 = 2 then y1 else (y0 + y1) / 2)

/-- The part of `qtInsert` after the (possible) subdivision re-insert:
route to a quadrant, insert there, update the aggregates. -/
def contStep (f : ℕ) (x0 y0 x1 y1 : ℚ) (t1 : QT) (idx : ℤ) (x y : ℚ) :
    Option QT :=
  let quadrant := quadrantOf x0 y0 x1 y1 x y
  let child : QT :=
    match getSlot t1.children quadrant with
    | .nullS =>
        createQTNode (quadBox x0 y0 x1 y1 quadrant).1
          (quadBox x0 y0 x1 y1 quadrant).2.1
          (quadBox x0 y0 x1 y1 quadrant).2.2.1
          (quadBox x0 y0 x1 y1 quadrant).2.2.2
    | .node c => c
  match qtInsert f child idx x y with
  | none => none
  | some child2 =>
      some (.mk t1.x0 t1.y0 t1.x1 t1.y1
        ((t1.cx * t1.mass + x) / (t1.mass + 1))
        ((t1.cy * t1.mass + y) / (t1.mass + 1))
        (t1.mass + 1) t1.body
        (setSlot t1.children quadrant (.node child2)))

mutual

/-- Positions of the bodies stored in a (sub)tree. -/
def QT.plist : QT → List (ℚ × ℚ)
  | .mk _ _ _ _ cx cy _ body children =>
      if body ≥ 0 then [(cx, cy)] else QChildren.plist children

def QChildren.plist : QChildren → List (ℚ × ℚ)
  | .nullC => []
  | .quad c0 c1 c2 c3 =>
      QSlot.plist c0 ++ QSlot.plist c1 ++ QSlot.plist c2 ++ QSlot.plist c3

def QSlot.plist : QSlot → List (ℚ × ℚ)
  | .nullS => []
  | .node t => QT.plist t

end

mutual

def QT.height : QT → ℕ
  | .mk _ _ _ _ _ _ _ _ children => QChildren.height children + 1

def QChildren.height : QChildren → ℕ
  | .nullC => 0
  | .quad c0 c1 c2 c3 =>
      max (max (QSlot.height c0) (QSlot.height c1))
        (max (QSlot.height c2) (QSlot.height c3))

def QSlot.height : QSlot → ℕ
  | .nullS => 0
  | .node t => QT.height t

end

/-- A point lies (weakly) inside a tree node's box. -/
def inBoxQ (t : QT) (x y : ℚ) : Prop :=
  t.x0 ≤ x ∧ x ≤ t.x1 ∧ t.y0 ≤ y ∧ y ≤ t.y1

mutual

/-- Well-formed quadtree nodes, as produced by the build: an empty node is
exactly a fresh `createQTNode`; a leaf carries one body inside its box,
`mass = 1`, and un-subdivided children; an internal node has `body = -1`,
`mass ≥ 1`, and each present child well-formed, non-empty and sitting on
exactly its quadrant's box. -/
inductive WF : QT → Prop where
  | empty (x0 y0 x1 y1 : ℚ) (hx : x0 < x1) (hy : y0 < y1) :
      WF (.mk x0 y0 x1 y1 0 0 0 (-1) .nullC)
  | leaf (x0 y0 x1 y1 cx cy : ℚ) (body : ℤ) (hx : x0 < x1) (hy : y0 < y1)
      (hb : 0 ≤ body) (hcx0 : x0 ≤ cx) (hcx1 : cx ≤ x1) (hcy0 : y0 ≤ cy)
      (hcy1 : cy ≤ y1) :
      WF (.mk x0 y0 x1 y1 cx cy 1 body .nullC)
  | internal (x0 y0 x1 y1 cx cy mass : ℚ) (c0 c1 c2 c3 : QSlot)
      (hx : x0 < x1) (hy : y0 < y1) (hm : 1 ≤ mass)
      (h0 : SlotOK x0 y0 x1 y1 0 c0) (h1 : SlotOK x0 y0 x1 y1 1 c1)
      (h2 : SlotOK x0 y0 x1 y1 2 c2) (h3 : SlotOK x0 y0 x1 y1 3 c3) :
      WF (.mk x0 y0 x1 y1 cx cy mass (-1) (.quad c0 c1 c2 c3))

inductive SlotOK : ℚ → ℚ → ℚ → ℚ → ℕ → QSlot → Prop where
  | nullS (x0 y0 x1 y1 : ℚ) (q : ℕ) : SlotOK x0 y0 x1 y1 q .nullS
  | node (x0 y0 x1 y1 : ℚ) (q : ℕ) (t : QT) (hwf : WF t)
      (hmass : 1 ≤ t.mass)
      (hbx0 : t.x0 = (quadBox x0 y0 x1 y1 q).1)
      (hby0 : t.y0 = (quadBox x0 y0 x1 y1 q).2.1)
      (hbx1 : t.x1 = (quadBox x0 y0 x1 y1 q).2.2.1)
      (hby1 : t.y1 = (quadBox x0 y0 x1 y1 q).2.2.2) :
      SlotOK x0 y0 x1 y1 q (.node t)

end

/-! #### Unfolding equations for `qtInsert` -/

theorem qtInsert_zero_mass (f : ℕ) (x0 y0 x1 y1 cx cy : ℚ) (body idx : ℤ)
    (ch : QChildren) (x y : ℚ) :
    qtInsert (f + 1) (.mk x0 y0 x1 y1 cx cy 0 body ch) idx x y =
      some (.mk x0 y0 x1 y1 x y 1 idx ch) := by
  simp [qtInsert]

theorem qtInsert_leaf_unfold (f : ℕ) (x0 y0 x1 y1 cx cy mass : ℚ)
    (body idx : ℤ) (x y : ℚ) (hm : ¬ mass = 0) :
    qtInsert (f + 1) (.mk x0 y0 x1 y1 cx cy mass body .nullC) idx x y =
      (qtInsert f
          (.mk x0 y0 x1 y1 cx cy mass (-1)
            (.quad .nullS .nullS .nullS .nullS)) body cx cy).bind
        (fun t1 => contStep f x0 y0 x1 y1 t1 idx x y) := by
  simp only [qtInsert, if_neg hm, contStep, quadrantOf, quadBox,
    createQTNode]
  cases qtInsert f
      (.mk x0 y0 x1 y1 cx cy mass (-1) (.quad .nullS .nullS .nullS .nullS))
      body cx cy with
  | none => rfl
  | some t1 => rfl

theorem qtInsert_internal_unfold (f : ℕ) (x0 y0 x1 y1 cx cy mass : ℚ)
    (body idx : ℤ) (c0 c1 c2 c3 : QSlot) (x y : ℚ) (hm : ¬ mass = 0) :
    qtInsert (f + 1)
        (.mk x0 y0 x1 y1 cx cy mass body (.quad c0 c1 c2 c3)) idx x y =
      contStep f x0 y0 x1 y1
        (.mk x0 y0 x1 y1 cx cy mass body (.quad c0 c1 c2 c3)) idx x y := by
  simp only [qtInsert, if_neg hm, contStep, quadrantOf, quadBox,
    createQTNode]

/-! #### Slot bookkeeping -/

theorem getSlot_nulls (q : ℕ) :
    getSlot (.quad .nullS .nullS .nullS .nullS) q = .nullS := by
  rcases q with _ | _ | _ | n <;> rfl

theorem quadrantOf_lt_four (x0 y0 x1 y1 x y : ℚ) :
    quadrantOf x0 y0 x1 y1 x y < 4 := by
  simp only [quadrantOf]
  by_cases hx : x > (x0 + x1) / 2 <;> by_cases hy : y > (y0 + y1) / 2 <;>
    simp [hx, hy]

theorem getSlot_setSlot_self (c0 c1 c2 c3 : QSlot) (q : ℕ) (s : QSlot)
    (hq : q < 4) :
    getSlot (setSlot (.quad c0 c1 c2 c3) q s) q = s := by
  interval_cases q <;> rfl

theorem getSlot_setSlot_ne (c0 c1 c2 c3 : QSlot) (q q' : ℕ) (s : QSlot)
    (hq : q < 4) (hq' : q' < 4) (hne : q' ≠ q) :
    getSlot (setSlot (.quad c0 c1 c2 c3) q s) q' =
      getSlot (.quad c0 c1 c2 c3) q' := by
  interval_cases q <;> interval_cases q' <;> first | rfl | omega

theorem WF_internal_slots (x0 y0 x1 y1 cx cy mass : ℚ) (body : ℤ)
    (c0 c1 c2 c3 : QSlot)
    (h : WF (.mk x0 y0 x1 y1 cx cy mass body (.quad c0 c1 c2 c3))) :
    body = -1 ∧ 1 ≤ mass ∧ x0 < x1 ∧ y0 < y1 ∧
      SlotOK x0 y0 x1 y1 0 c0 ∧ SlotOK x0 y0 x1 y1 1 c1 ∧
      SlotOK x0 y0 x1 y1 2 c2 ∧ SlotOK x0 y0 x1 y1 3 c3 := by
  cases h with
  | internal _ _ _ _ _ _ _ _ _ _ _ hx hy hm h0 h1 h2 h3 =>
      exact ⟨rfl, hm, hx, hy, h0, h1, h2, h3⟩

theorem WF_internal_getSlot (x0 y0 x1 y1 cx cy mass : ℚ) (body : ℤ)
    (c0 c1 c2 c3 : QSlot) (q : ℕ) (hq : q < 4)
    (h : WF (.mk x0 y0 x1 y1 cx cy mass body (.quad c0 c1 c2 c3))) :
    SlotOK x0 y0 x1 y1 q (getSlot (.quad c0 c1 c2 c3) q) := by
  rcases WF_internal_slots _ _ _ _ _ _ _ _ _ _ _ _ h with
    ⟨_, _, _, _, h0, h1, h2, h3⟩
  interval_cases q
  · exact h0
  · exact h1
  · exact h2
  · exact h3

/-! #### Geometry: routing into quadrants -/

theorem quadBox_mem (x0 y0 x1 y1 x y : ℚ)
    (hx0 : x0 ≤ x) (hx1 : x ≤ x1) (hy0 : y0 ≤ y) (hy1 : y ≤ y1) :
    (quadBox x0 y0 x1 y1 (quadrantOf x0 y0 x1 y1 x y)).1 ≤ x ∧
    x ≤ (quadBox x0 y0 x1 y1 (quadrantOf x0 y0 x1 y1 x y)).2.2.1 ∧
    (quadBox x0 y0 x1 y1 (quadrantOf x0 y0 x1 y1 x y)).2.1 ≤ y ∧
    y ≤ (quadBox x0 y0 x1 y1 (quadrantOf x0 y0 x1 y1 x y)).2.2.2 := by
  simp only [quadrantOf, quadBox]
  by_cases hx : x > (x0 + x1) / 2 <;> by_cases hy : y > (y0 + y1) / 2 <;>
    simp [hx, hy, show (3 : ℕ) &&& 1 = 1 from rfl,
      show (3 : ℕ) &&& 2 = 2 from rfl, show (1 : ℕ) &&& 1 = 1 from rfl,
      show (1 : ℕ) &&& 2 = 0 from rfl, show (2 : ℕ) &&& 1 = 0 from rfl,
      show (2 : ℕ) &&& 2 = 2 from rfl, show (0 : ℕ) &&& 1 = 0 from rfl,
      show (0 : ℕ) &&& 2 = 0 from rfl] <;>
    (repeat' apply And.intro) <;> linarith

theorem quadBox_pos (x0 y0 x1 y1 : ℚ) (q : ℕ) (hx : x0 < x1)
    (hy : y0 < y1) :
    (quadBox x0 y0 x1 y1 q).1 < (quadBox x0 y0 x1 y1 q).2.2.1 ∧
    (quadBox x0 y0 x1 y1 q).2.1 < (quadBox x0 y0 x1 y1 q).2.2.2 := by
  simp only [quadBox]
  by_cases h1 : q &&& 1 = 1 <;> by_cases h2 : q &&& 2 = 2 <;>
    simp only [h1, h2, if_true, if_false] <;> constructor <;> linarith

theorem quadBox_halves (x0 y0 x1 y1 : ℚ) (q : ℕ) :
    (quadBox x0 y0 x1 y1 q).2.2.1 - (quadBox x0 y0 x1 y1 q).1 =
      (x1 - x0) / 2 ∧
    (quadBox x0 y0 x1 y1 q).2.2.2 - (quadBox x0 y0 x1 y1 q).2.1 =
      (y1 - y0) / 2 := by
  simp only [quadBox]
  by_cases h1 : q &&& 1 = 1 <;> by_cases h2 : q &&& 2 = 2 <;>
    simp only [h1, h2, if_true, if_false] <;> constructor <;> ring

/-- Two points of the same box routed to the same quadrant are within half
the box dimensions of each other. -/
theorem same_quadrant_close (x0 y0 x1 y1 x y u v : ℚ)
    (hx0 : x0 ≤ x) (hx1 : x ≤ x1) (hy0 : y0 ≤ y) (hy1 : y ≤ y1)
    (hu0 : x0 ≤ u) (hu1 : u ≤ x1) (hv0 : y0 ≤ v) (hv1 : v ≤ y1)
    (heq : quadrantOf x0 y0 x1 y1 x y = quadrantOf x0 y0 x1 y1 u v) :
    |x - u| ≤ (x1 - x0) / 2 ∧ |y - v| ≤ (y1 - y0) / 2 := by
  simp only [quadrantOf] at heq
  by_cases hx : x > (x0 + x1) / 2 <;> by_cases hy : y > (y0 + y1) / 2 <;>
    by_cases hu : u > (x0 + x1) / 2 <;> by_cases hv : v > (y0 + y1) / 2 <;>
    simp only [hx, hy, hu, hv, if_true, if_false] at heq <;>
    first
      | omega
      | (constructor <;> rw [abs_le] <;> constructor <;>
          push_neg at hx hy hu hv <;> linarith)

theorem plist_leaf (x0 y0 x1 y1 cx cy mass : ℚ) (body : ℤ)
    (hb : 0 ≤ body) :
    QT.plist (.mk x0 y0 x1 y1 cx cy mass body .nullC) = [(cx, cy)] := by
  simp [QT.plist, hb]

theorem plist_nonleaf (x0 y0 x1 y1 cx cy mass : ℚ) (ch : QChildren) :
    QT.plist (.mk x0 y0 x1 y1 cx cy mass (-1) ch) = QChildren.plist ch := by
  simp [QT.plist]

theorem plist_quad (c0 c1 c2 c3 : QSlot) :
    QChildren.plist (.quad c0 c1 c2 c3) =
      QSlot.plist c0 ++ QSlot.plist c1 ++ QSlot.plist c2 ++ QSlot.plist c3 :=
  rfl

theorem height_child_lt (x0 y0 x1 y1 cx cy mass : ℚ) (body : ℤ)
    (c0 c1 c2 c3 : QSlot) (q : ℕ) (c : QT)
    (h : getSlot (.quad c0 c1 c2 c3) q = .node c) :
    QT.height c <
      QT.height (.mk x0 y0 x1 y1 cx cy mass body (.quad c0 c1 c2 c3)) := by
  have hle : QT.height c ≤ QChildren.height (.quad c0 c1 c2 c3) := by
    rcases q with _ | _ | _ | n <;>
      simp only [getSlot] at h <;> subst h <;>
      simp only [QChildren.height, QSlot.height] <;> omega
  simp only [QT.height]
  omega

/-- More fuel never changes a successful `qtInsert`. -/
theorem qtInsert_mono : ∀ (f f' : ℕ), f ≤ f' →
    ∀ (t : QT) (idx : ℤ) (x y : ℚ) (t' : QT),
      qtInsert f t idx x y = some t' → qtInsert f' t idx x y = some t' := by
  intro f
  induction f with
  | zero => intro f' _ t idx x y t' h; cases h
  | succ f ih =>
      intro f' hff t idx x y t' h
      match f', hff with
      | f'' + 1, hff =>
        have hf : f ≤ f'' := by omega
        match t with
        | .mk x0 y0 x1 y1 cx cy mass body ch =>
          by_cases hm : mass = 0
          · subst hm
            rw [qtInsert_zero_mass] at h
            rw [qtInsert_zero_mass]
            exact h
          · match ch with
            | .nullC =>
                rw [qtInsert_leaf_unfold f _ _ _ _ _ _ _ _ _ _ _ hm] at h
                rw [qtInsert_leaf_unfold f'' _ _ _ _ _ _ _ _ _ _ _ hm]
                cases hself : qtInsert f
                    (.mk x0 y0 x1 y1 cx cy mass (-1)
                      (.quad .nullS .nullS .nullS .nullS)) body cx cy with
                | none => rw [hself] at h; cases h
                | some t1 =>
                    rw [hself] at h
                    rw [ih f'' hf _ _ _ _ _ hself]
                    simp only [Option.some_bind] at h ⊢
                    simp only [contStep] at h ⊢
                    cases hchild : qtInsert f
                        (match getSlot t1.children
                            (quadrantOf x0 y0 x1 y1 x y) with
                        | .nullS =>
                            createQTNode
                              (quadBox x0 y0 x1 y1
                                (quadrantOf x0 y0 x1 y1 x y)).1
                              (quadBox x0 y0 x1 y1
                                (quadrantOf x0 y0 x1 y1 x y)).2.1
                              (quadBox x0 y0 x1 y1
                                (quadrantOf x0 y0 x1 y1 x y)).2.2.1
                              (quadBox x0 y0 x1 y1
                                (quadrantOf x0 y0 x1 y1 x y)).2.2.2
                        | .node c => c) idx x y with
                    | none => rw [hchild] at h; cases h
                    | some child2 =>
                        rw [hchild] at h
                        rw [ih f'' hf _ _ _ _ _ hchild]
                        exact h
            | .quad c0 c1 c2 c3 =>
                rw [qtInsert_internal_unfold f _ _ _ _ _ _ _ _ _ _ _ _ _ _ _
                  hm] at h
                rw [qtInsert_internal_unfold f'' _ _ _ _ _ _ _ _ _ _ _ _ _ _ _
                  hm]
                simp only [contStep] at h ⊢
                cases hchild : qtInsert f
                    (match getSlot
                        (QT.children
                          (.mk x0 y0 x1 y1 cx cy mass body
                            (.quad c0 c1 c2 c3)))
                        (quadrantOf x0 y0 x1 y1 x y) with
                    | .nullS =>
                        createQTNode
                          (quadBox x0 y0 x1 y1
                            (quadrantOf x0 y0 x1 y1 x y)).1
                          (quadBox x0 y0 x1 y1
                            (quadrantOf x0 y0 x1 y1 x y)).2.1
                          (quadBox x0 y0 x1 y1
                            (quadrantOf x0 y0 x1 y1 x y)).2.2.1
                          (quadBox x0 y0 x1 y1
                            (quadrantOf x0 y0 x1 y1 x y)).2.2.2
                    | .node c => c) idx x y with
                | none => rw [hchild] at h; cases h
                | some child2 =>
                    rw [hchild] at h
                    rw [ih f'' hf _ _ _ _ _ hchild]
                    exact h

theorem plist_createQTNode (a b c d : ℚ) :
    QT.plist (createQTNode a b c d) = [] := rfl

/-- `contStep` on a node literal, with the routed child named explicitly. -/
theorem contStep_eq (f : ℕ) (x0 y0 x1 y1 cx cy mass : ℚ) (body : ℤ)
    (ch : QChildren) (idx : ℤ) (x y : ℚ) (q : ℕ)
    (hq : quadrantOf x0 y0 x1 y1 x y = q) (child : QT)
    (hsl : (match getSlot ch q with
      | .nullS =>
          createQTNode (quadBox x0 y0 x1 y1 q).1 (quadBox x0 y0 x1 y1 q).2.1
            (quadBox x0 y0 x1 y1 q).2.2.1 (quadBox x0 y0 x1 y1 q).2.2.2
      | .node c => c) = child) :
    contStep f x0 y0 x1 y1 (.mk x0 y0 x1 y1 cx cy mass body ch) idx x y =
      match qtInsert f child idx x y with
      | none => none
      | some child2 =>
          some (.mk x0 y0 x1 y1 ((cx * mass + x) / (mass + 1))
            ((cy * mass + y) / (mass + 1)) (mass + 1) body
            (setSlot ch q (.node child2))) := by
  subst hq hsl
  simp only [contStep, QT.children, QT.x0, QT.y0, QT.x1, QT.y1, QT.cx,
    QT.cy, QT.mass, QT.body]

/-- Replacing one quadrant slot by a well-formed occupied slot keeps the
node well-formed. -/
theorem WF_setSlot (x0 y0 x1 y1 cx cy mass : ℚ) (c0 c1 c2 c3 : QSlot)
    (q : ℕ) (hq : q < 4) (hbx : x0 < x1) (hby : y0 < y1) (hm : 1 ≤ mass)
    (hs0 : SlotOK x0 y0 x1 y1 0 c0) (hs1 : SlotOK x0 y0 x1 y1 1 c1)
    (hs2 : SlotOK x0 y0 x1 y1 2 c2) (hs3 : SlotOK x0 y0 x1 y1 3 c3)
    (s : QSlot) (hs : SlotOK x0 y0 x1 y1 q s) :
    WF (.mk x0 y0 x1 y1 cx cy mass (-1) (setSlot (.quad c0 c1 c2 c3) q s)) := by
  interval_cases q
  · exact WF.internal _ _ _ _ _ _ _ _ _ _ _ hbx hby hm hs hs1 hs2 hs3
  · exact WF.internal _ _ _ _ _ _ _ _ _ _ _ hbx hby hm hs0 hs hs2 hs3
  · exact WF.internal _ _ _ _ _ _ _ _ _ _ _ hbx hby hm hs0 hs1 hs hs3
  · exact WF.internal _ _ _ _ _ _ _ _ _ _ _ hbx hby hm hs0 hs1 hs2 hs

theorem setSlot_isQuad (c0 c1 c2 c3 : QSlot) (q : ℕ) (s : QSlot) :
    ∃ a2 b2 c2' d2, setSlot (.quad c0 c1 c2 c3) q s = .quad a2 b2 c2' d2 := by
  match q with
  | 0 => exact ⟨_, _, _, _, rfl⟩
  | 1 => exact ⟨_, _, _, _, rfl⟩
  | 2 => exact ⟨_, _, _, _, rfl⟩
  | n + 3 => exact ⟨_, _, _, _, rfl⟩

theorem mem_plist_quad_iff (c0 c1 c2 c3 : QSlot) (p : ℚ × ℚ) :
    p ∈ QChildren.plist (.quad c0 c1 c2 c3) ↔
      ∃ j, j < 4 ∧ p ∈ QSlot.plist (getSlot (.quad c0 c1 c2 c3) j) := by
  rw [plist_quad]
  simp only [List.mem_append]
  constructor
  · rintro (((hp | hp) | hp) | hp)
    · exact ⟨0, by omega, hp⟩
    · exact ⟨1, by omega, hp⟩
    · exact ⟨2, by omega, hp⟩
    · exact ⟨3, by omega, hp⟩
  · rintro ⟨j, hj4, hp⟩
    interval_cases j
    · exact Or.inl (Or.inl (Or.inl hp))
    · exact Or.inl (Or.inl (Or.inr hp))
    · exact Or.inl (Or.inr hp)
    · exact Or.inr hp

theorem mem_plist_setSlot (c0 c1 c2 c3 : QSlot) (q : ℕ) (hq : q < 4)
    (s : QSlot) (p : ℚ × ℚ) :
    p ∈ QChildren.plist (setSlot (.quad c0 c1 c2 c3) q s) ↔
      p ∈ QSlot.plist s ∨
        ∃ j, j < 4 ∧ j ≠ q ∧
          p ∈ QSlot.plist (getSlot (.quad c0 c1 c2 c3) j) := by
  interval_cases q
  · rw [show setSlot (QChildren.quad c0 c1 c2 c3) 0 s = .quad s c1 c2 c3
        from rfl, plist_quad]
    simp only [List.mem_append]
    constructor
    · rintro (((hp | hp) | hp) | hp)
      · exact Or.inl hp
      · exact Or.inr ⟨1, by omega, by omega, hp⟩
      · exact Or.inr ⟨2, by omega, by omega, hp⟩
      · exact Or.inr ⟨3, by omega, by omega, hp⟩
    · rintro (hp | ⟨j, hj4, hjne, hp⟩)
      · exact Or.inl (Or.inl (Or.inl hp))
      · interval_cases j
        · exact absurd rfl hjne
        · exact Or.inl (Or.inl (Or.inr hp))
        · exact Or.inl (Or.inr hp)
        · exact Or.inr hp
  · rw [show setSlot (QChildren.quad c0 c1 c2 c3) 1 s = .quad c0 s c2 c3
        from rfl, plist_quad]
    simp only [List.mem_append]
    constructor
    · rintro (((hp | hp) | hp) | hp)
      · exact Or.inr ⟨0, by omega, by omega, hp⟩
      · exact Or.inl hp
      · exact Or.inr ⟨2, by omega, by omega, hp⟩
      · exact Or.inr ⟨3, by omega, by omega, hp⟩
    · rintro (hp | ⟨j, hj4, hjne, hp⟩)
      · exact Or.inl (Or.inl (Or.inr hp))
      · interval_cases j
        · exact Or.inl (Or.inl (Or.inl hp))
        · exact absurd rfl hjne
        · exact Or.inl (Or.inr hp)
        · exact Or.inr hp
  · rw [show setSlot (QChildren.quad c0 c1 c2 c3) 2 s = .quad c0 c1 s c3
        from rfl, plist_quad]
    simp only [List.mem_append]
    constructor
    · rintro (((hp | hp) | hp) | hp)
      · exact Or.inr ⟨0, by omega, by omega, hp⟩
      · exact Or.inr ⟨1, by omega, by omega, hp⟩
      · exact Or.inl hp
      · exact Or.inr ⟨3, by omega, by omega, hp⟩
    · rintro (hp | ⟨j, hj4, hjne, hp⟩)
      · exact Or.inl (Or.inr hp)
      · interval_cases j
        · exact Or.inl (Or.inl (Or.inl hp))
        · exact Or.inl (Or.inl (Or.inr hp))
        · exact absurd rfl hjne
        · exact Or.inr hp
  · rw [show setSlot (QChildren.quad c0 c1 c2 c3) 3 s = .quad c0 c1 c2 s
        from rfl, plist_quad]
    simp only [List.mem_append]
    constructor
    · rintro (((hp | hp) | hp) | hp)
      · exact Or.inr ⟨0, by omega, by omega, hp⟩
      · exact Or.inr ⟨1, by omega, by omega, hp⟩
      · exact Or.inr ⟨2, by omega, by omega, hp⟩
      · exact Or.inl hp
    · rintro (hp | ⟨j, hj4, hjne, hp⟩)
      · exact Or.inr hp
      · interval_cases j
        · exact Or.inl (Or.inl (Or.inl hp))
        · exact Or.inl (Or.inl (Or.inr hp))
        · exact Or.inl (Or.inr hp)
        · exact absurd rfl hjne

/-- What one routing-and-insert step (`contStep`) does to a well-formed
internal node, given that one insertion at the current fuel preserves
well-formedness. -/
theorem contStep_preserves (f : ℕ)
    (IH : ∀ (t t' : QT) (idx : ℤ) (x y : ℚ),
      qtInsert f t idx x y = some t' → WF t → inBoxQ t x y → 0 ≤ idx →
      WF t' ∧ t'.x0 = t.x0 ∧ t'.y0 = t.y0 ∧ t'.x1 = t.x1 ∧ t'.y1 = t.y1 ∧
        1 ≤ t'.mass ∧ (∀ p, p ∈ t'.plist ↔ p ∈ t.plist ∨ p = (x, y)) ∧
        (∀ a b c d, t.children = .quad a b c d →
          ∃ a2 b2 c2 d2, t'.children = .quad a2 b2 c2 d2))
    (x0 y0 x1 y1 cx cy mass : ℚ) (c0 c1 c2 c3 : QSlot) (idx : ℤ)
    (x y : ℚ) (t' : QT)
    (h : contStep f x0 y0 x1 y1
      (.mk x0 y0 x1 y1 cx cy mass (-1) (.quad c0 c1 c2 c3)) idx x y =
      some t')
    (hwf : WF (.mk x0 y0 x1 y1 cx cy mass (-1) (.quad c0 c1 c2 c3)))
    (hx0 : x0 ≤ x) (hx1 : x ≤ x1) (hy0 : y0 ≤ y) (hy1 : y ≤ y1)
    (hidx : 0 ≤ idx) :
    WF t' ∧ t'.x0 = x0 ∧ t'.y0 = y0 ∧ t'.x1 = x1 ∧ t'.y1 = y1 ∧
      1 ≤ t'.mass ∧
      (∀ p, p ∈ t'.plist ↔
        p ∈ QT.plist (.mk x0 y0 x1 y1 cx cy mass (-1) (.quad c0 c1 c2 c3)) ∨
          p = (x, y)) ∧
      (∃ a2 b2 c2 d2, t'.children = .quad a2 b2 c2 d2) := by
  rcases WF_internal_slots _ _ _ _ _ _ _ _ _ _ _ _ hwf with
    ⟨-, hm1, hbx, hby, hs0, hs1, hs2, hs3⟩
  have hq4 : quadrantOf x0 y0 x1 y1 x y < 4 := quadrantOf_lt_four _ _ _ _ _ _
  have hslot : SlotOK x0 y0 x1 y1 (quadrantOf x0 y0 x1 y1 x y)
      (getSlot (.quad c0 c1 c2 c3) (quadrantOf x0 y0 x1 y1 x y)) :=
    WF_internal_getSlot _ _ _ _ _ _ _ _ _ _ _ _ _ hq4 hwf
  have hmem := quadBox_mem x0 y0 x1 y1 x y hx0 hx1 hy0 hy1
  cases hsl : getSlot (.quad c0 c1 c2 c3) (quadrantOf x0 y0 x1 y1 x y) with
  | nullS =>
      rw [contStep_eq f x0 y0 x1 y1 cx cy mass (-1) (.quad c0 c1 c2 c3)
        idx x y (quadrantOf x0 y0 x1 y1 x y) rfl
        (createQTNode
          (quadBox x0 y0 x1 y1 (quadrantOf x0 y0 x1 y1 x y)).1
          (quadBox x0 y0 x1 y1 (quadrantOf x0 y0 x1 y1 x y)).2.1
          (quadBox x0 y0 x1 y1 (quadrantOf x0 y0 x1 y1 x y)).2.2.1
          (quadBox x0 y0 x1 y1 (quadrantOf x0 y0 x1 y1 x y)).2.2.2)
        (by rw [hsl])] at h
      rcases quadBox_pos x0 y0 x1 y1 (quadrantOf x0 y0 x1 y1 x y) hbx hby
        with ⟨hp1, hp2⟩
      cases hins : qtInsert f
          (createQTNode
            (quadBox x0 y0 x1 y1 (quadrantOf x0 y0 x1 y1 x y)).1
            (quadBox x0 y0 x1 y1 (quadrantOf x0 y0 x1 y1 x y)).2.1
            (quadBox x0 y0 x1 y1 (quadrantOf x0 y0 x1 y1 x y)).2.2.1
            (quadBox x0 y0 x1 y1 (quadrantOf x0 y0 x1 y1 x y)).2.2.2)
          idx x y with
      | none => rw [hins] at h; cases h
      | some child2 =>
          rw [hins] at h
          replace h := Option.some.inj h
          obtain ⟨hwf2, he0, he1, he2, he3, hm2, hpl2, -⟩ :=
            IH _ _ _ _ _ hins (WF.empty _ _ _ _ hp1 hp2)
              ⟨hmem.1, hmem.2.1, hmem.2.2.1, hmem.2.2.2⟩ hidx
          subst h
          have hsok : SlotOK x0 y0 x1 y1 (quadrantOf x0 y0 x1 y1 x y)
              (.node child2) :=
            SlotOK.node _ _ _ _ _ _ hwf2 hm2 (he0.trans rfl) (he1.trans rfl)
              (he2.trans rfl) (he3.trans rfl)
          refine ⟨WF_setSlot x0 y0 x1 y1 _ _ (mass + 1) c0 c1 c2 c3 _ hq4
              hbx hby (by linarith) hs0 hs1 hs2 hs3 _ hsok,
            rfl, rfl, rfl, rfl, ?_, ?_, setSlot_isQuad c0 c1 c2 c3 _ _⟩
          · show (1 : ℚ) ≤ mass + 1
            linarith
          · intro p
            rw [plist_nonleaf, plist_nonleaf,
              mem_plist_setSlot c0 c1 c2 c3 _ hq4 _ p, mem_plist_quad_iff]
            have e2 : QSlot.plist (QSlot.node child2) = QT.plist child2 := rfl
            rw [e2]
            have hpl2' := hpl2 p
            rw [plist_createQTNode] at hpl2'
            simp only [List.not_mem_nil, false_or] at hpl2'
            rw [hpl2']
            constructor
            · rintro (hp | ⟨j, hj4, hjne, hp⟩)
              · exact Or.inr hp
              · exact Or.inl ⟨j, hj4, hp⟩
            · rintro (⟨j, hj4, hp⟩ | hp)
              · by_cases hj : j = quadrantOf x0 y0 x1 y1 x y
                · subst hj
                  rw [hsl] at hp
                  exact absurd hp (List.not_mem_nil p)
                · exact Or.inr ⟨j, hj4, hj, hp⟩
              · exact Or.inl hp
  | node c =>
      rw [contStep_eq f x0 y0 x1 y1 cx cy mass (-1) (.quad c0 c1 c2 c3)
        idx x y (quadrantOf x0 y0 x1 y1 x y) rfl c (by rw [hsl])] at h
      rw [hsl] at hslot
      cases hslot with
      | node _ _ _ _ _ _ hcwf hcm hb1 hb2 hb3 hb4 =>
          have hcin : inBoxQ c x y := by
            refine ⟨?_, ?_, ?_, ?_⟩
            · rw [hb1]; exact hmem.1
            · rw [hb3]; exact hmem.2.1
            · rw [hb2]; exact hmem.2.2.1
            · rw [hb4]; exact hmem.2.2.2
          cases hins : qtInsert f c idx x y with
          | none => rw [hins] at h; cases h
          | some child2 =>
              rw [hins] at h
              replace h := Option.some.inj h
              obtain ⟨hwf2, he0, he1, he2, he3, hm2, hpl2, -⟩ :=
                IH _ _ _ _ _ hins hcwf hcin hidx
              subst h
              have hsok : SlotOK x0 y0 x1 y1 (quadrantOf x0 y0 x1 y1 x y)
                  (.node child2) :=
                SlotOK.node _ _ _ _ _ _ hwf2 hm2 (he0.trans hb1)
                  (he1.trans hb2) (he2.trans hb3) (he3.trans hb4)
              refine ⟨WF_setSlot x0 y0 x1 y1 _ _ (mass + 1) c0 c1 c2 c3 _
                  hq4 hbx hby (by linarith) hs0 hs1 hs2 hs3 _ hsok,
                rfl, rfl, rfl, rfl, ?_, ?_, setSlot_isQuad c0 c1 c2 c3 _ _⟩
              · show (1 : ℚ) ≤ mass + 1
                linarith
              · intro p
                rw [plist_nonleaf, plist_nonleaf,
                  mem_plist_setSlot c0 c1 c2 c3 _ hq4 _ p,
                  mem_plist_quad_iff]
                have e2 : QSlot.plist (QSlot.node child2) =
                    QT.plist child2 := rfl
                rw [e2, hpl2 p]
                constructor
                · rintro ((hp | hp) | ⟨j, hj4, hjne, hp⟩)
                  · refine Or.inl ⟨quadrantOf x0 y0 x1 y1 x y, hq4, ?_⟩
                    rw [hsl]
                    exact hp
                  · exact Or.inr hp
                  · exact Or.inl ⟨j, hj4, hp⟩
                · rintro (⟨j, hj4, hp⟩ | hp)
                  · by_cases hj : j = quadrantOf x0 y0 x1 y1 x y
                    · subst hj
                      rw [hsl] at hp
                      exact Or.inl (Or.inl hp)
                    · exact Or.inr ⟨j, hj4, hj, hp⟩
                  · exact Or.inl (Or.inr hp)

/-- A successful `qtInsert` preserves well-formedness and the bounding box,
makes the node non-empty, adds exactly the inserted position to the stored
positions, and keeps subdivided children subdivided. -/
theorem qtInsert_preserves : ∀ (f : ℕ) (t t' : QT) (idx : ℤ) (x y : ℚ),
    qtInsert f t idx x y = some t' → WF t → inBoxQ t x y → 0 ≤ idx →
    WF t' ∧ t'.x0 = t.x0 ∧ t'.y0 = t.y0 ∧ t'.x1 = t.x1 ∧ t'.y1 = t.y1 ∧
      1 ≤ t'.mass ∧ (∀ p, p ∈ t'.plist ↔ p ∈ t.plist ∨ p = (x, y)) ∧
      (∀ a b c d, t.children = .quad a b c d →
        ∃ a2 b2 c2 d2, t'.children = .quad a2 b2 c2 d2) := by
  intro f
  induction f with
  | zero => intro t t' idx x y h; cases h
  | succ f ih =>
      intro t t' idx x y h hwf hin hidx
      cases hwf with
      | empty x0 y0 x1 y1 hx hy =>
          rw [qtInsert_zero_mass] at h
          replace h := Option.some.inj h
          subst h
          obtain ⟨hi1, hi2, hi3, hi4⟩ := hin
          refine ⟨WF.leaf x0 y0 x1 y1 x y idx hx hy hidx hi1 hi2 hi3 hi4,
            rfl, rfl, rfl, rfl, le_refl 1, ?_, ?_⟩
          · intro p
            rw [plist_leaf x0 y0 x1 y1 x y 1 idx hidx,
              plist_nonleaf x0 y0 x1 y1 0 0 0 QChildren.nullC]
            have e : QChildren.plist QChildren.nullC = ([] : List (ℚ × ℚ)) :=
              rfl
            rw [e]
            simp
          · intro a b c d hcon
            cases hcon
      | leaf x0 y0 x1 y1 cx cy bd hx hy hb hcx0 hcx1 hcy0 hcy1 =>
          rw [qtInsert_leaf_unfold f x0 y0 x1 y1 cx cy 1 bd idx x y
            (one_ne_zero)] at h
          obtain ⟨hi1, hi2, hi3, hi4⟩ := hin
          cases hself : qtInsert f
              (.mk x0 y0 x1 y1 cx cy 1 (-1)
                (.quad .nullS .nullS .nullS .nullS)) bd cx cy with
          | none => rw [hself, Option.none_bind] at h; cases h
          | some t1 =>
              rw [hself, Option.some_bind] at h
              have hwfmid : WF (.mk x0 y0 x1 y1 cx cy 1 (-1)
                  (.quad .nullS .nullS .nullS .nullS)) :=
                WF.internal _ _ _ _ _ _ _ _ _ _ _ hx hy le_rfl
                  (SlotOK.nullS _ _ _ _ _) (SlotOK.nullS _ _ _ _ _)
                  (SlotOK.nullS _ _ _ _ _) (SlotOK.nullS _ _ _ _ _)
              obtain ⟨hwf1, hf0, hf1, hf2, hf3, hm1', hpl1, hquad1⟩ :=
                ih _ _ _ _ _ hself hwfmid ⟨hcx0, hcx1, hcy0, hcy1⟩ hb
              obtain ⟨a2, b2, c2', d2, hch1⟩ :=
                hquad1 QSlot.nullS QSlot.nullS QSlot.nullS QSlot.nullS rfl
              cases t1 with
              | mk a0 b0 a1 b1 tcx tcy tm tbody tch =>
                  replace hf0 : x0 = a0 := Eq.symm hf0
                  replace hf1 : y0 = b0 := Eq.symm hf1
                  replace hf2 : x1 = a1 := Eq.symm hf2
                  replace hf3 : y1 = b1 := Eq.symm hf3
                  replace hch1 : tch = QChildren.quad a2 b2 c2' d2 := hch1
                  subst hf0 hf1 hf2 hf3 hch1
                  have hbody1 : tbody = -1 :=
                    (WF_internal_slots _ _ _ _ _ _ _ _ _ _ _ _ hwf1).1
                  subst hbody1
                  obtain ⟨hwt', ht0, ht1', ht2, ht3, hmt, hplt, hqt⟩ :=
                    contStep_preserves f ih x0 y0 x1 y1 tcx tcy tm
                      a2 b2 c2' d2 idx x y t' h hwf1 hi1 hi2 hi3 hi4 hidx
                  refine ⟨hwt', ht0, ht1', ht2, ht3, hmt, ?_,
                    fun a b c d _ => hqt⟩
                  intro p
                  rw [hplt p, hpl1 p, plist_leaf x0 y0 x1 y1 cx cy 1 bd hb,
                    plist_nonleaf]
                  have e : QChildren.plist
                      (.quad QSlot.nullS QSlot.nullS QSlot.nullS
                        QSlot.nullS) = ([] : List (ℚ × ℚ)) := rfl
                  rw [e]
                  simp
      | internal x0 y0 x1 y1 cx cy mass c0 c1 c2 c3 hx hy hm h0 h1 h2 h3 =>
          have hm0 : ¬ (mass = 0) := by
            intro hh
            rw [hh] at hm
            norm_num at hm
          rw [qtInsert_internal_unfold f x0 y0 x1 y1 cx cy mass (-1) idx
            c0 c1 c2 c3 x y hm0] at h
          obtain ⟨hi1, hi2, hi3, hi4⟩ := hin
          obtain ⟨hwt', ht0, ht1', ht2, ht3, hmt, hplt, hqt⟩ :=
            contStep_preserves f ih x0 y0 x1 y1 cx cy mass c0 c1 c2 c3
              idx x y t' h
              (WF.internal _ _ _ _ _ _ _ _ _ _ _ hx hy hm h0 h1 h2 h3)
              hi1 hi2 hi3 hi4 hidx
          exact ⟨hwt', ht0, ht1', ht2, ht3, hmt, hplt,
            fun a b c d _ => hqt⟩

/-! #### Enough fuel always exists: `qtInsert` terminates on a fresh point -/

theorem qtInsert_zero_mass_of (F f : ℕ) (hF : F = f + 1)
    (x0 y0 x1 y1 cx cy : ℚ) (body idx : ℤ) (ch : QChildren) (x y : ℚ) :
    qtInsert F (.mk x0 y0 x1 y1 cx cy 0 body ch) idx x y =
      some (.mk x0 y0 x1 y1 x y 1 idx ch) := by
  subst hF
  exact qtInsert_zero_mass f x0 y0 x1 y1 cx cy body idx ch x y

theorem qtInsert_leaf_unfold_of (F f : ℕ) (hF : F = f + 1)
    (x0 y0 x1 y1 cx cy mass : ℚ) (body idx : ℤ) (x y : ℚ)
    (hm : ¬ mass = 0) :
    qtInsert F (.mk x0 y0 x1 y1 cx cy mass body .nullC) idx x y =
      (qtInsert f
          (.mk x0 y0 x1 y1 cx cy mass (-1)
            (.quad .nullS .nullS .nullS .nullS)) body cx cy).bind
        (fun t1 => contStep f x0 y0 x1 y1 t1 idx x y) := by
  subst hF
  exact qtInsert_leaf_unfold f x0 y0 x1 y1 cx cy mass body idx x y hm

theorem qtInsert_internal_unfold_of (F f : ℕ) (hF : F = f + 1)
    (x0 y0 x1 y1 cx cy mass : ℚ) (body idx : ℤ) (c0 c1 c2 c3 : QSlot)
    (x y : ℚ) (hm : ¬ mass = 0) :
    qtInsert F (.mk x0 y0 x1 y1 cx cy mass body (.quad c0 c1 c2 c3)) idx
        x y =
      contStep f x0 y0 x1 y1
        (.mk x0 y0 x1 y1 cx cy mass body (.quad c0 c1 c2 c3)) idx x y := by
  subst hF
  exact qtInsert_internal_unfold f x0 y0 x1 y1 cx cy mass body idx
    c0 c1 c2 c3 x y hm

/-- Inserting into an internal node whose four slots are all null: the
point lands alone in a fresh child of its quadrant. -/
theorem qtInsert_into_nulls (F : ℕ) (hF : 2 ≤ F)
    (x0 y0 x1 y1 cx cy mass : ℚ) (bd idx : ℤ) (x y : ℚ)
    (hm : ¬ mass = 0) :
    qtInsert F
        (.mk x0 y0 x1 y1 cx cy mass bd
          (.quad .nullS .nullS .nullS .nullS)) idx x y =
      some (.mk x0 y0 x1 y1 ((cx * mass + x) / (mass + 1))
        ((cy * mass + y) / (mass + 1)) (mass + 1) bd
        (setSlot (.quad .nullS .nullS .nullS .nullS)
          (quadrantOf x0 y0 x1 y1 x y)
          (.node (.mk (quadBox x0 y0 x1 y1 (quadrantOf x0 y0 x1 y1 x y)).1
            (quadBox x0 y0 x1 y1 (quadrantOf x0 y0 x1 y1 x y)).2.1
            (quadBox x0 y0 x1 y1 (quadrantOf x0 y0 x1 y1 x y)).2.2.1
            (quadBox x0 y0 x1 y1 (quadrantOf x0 y0 x1 y1 x y)).2.2.2
            x y 1 idx .nullC)))) := by
  obtain ⟨g, rfl⟩ : ∃ g, F = (g + 1) + 1 := ⟨F - 2, by omega⟩
  rw [qtInsert_internal_unfold_of ((g + 1) + 1) (g + 1) rfl x0 y0 x1 y1
    cx cy mass bd idx QSlot.nullS QSlot.nullS QSlot.nullS QSlot.nullS x y hm]
  rw [contStep_eq (g + 1) x0 y0 x1 y1 cx cy mass bd
    (.quad .nullS .nullS .nullS .nullS) idx x y
    (quadrantOf x0 y0 x1 y1 x y) rfl
    (createQTNode (quadBox x0 y0 x1 y1 (quadrantOf x0 y0 x1 y1 x y)).1
      (quadBox x0 y0 x1 y1 (quadrantOf x0 y0 x1 y1 x y)).2.1
      (quadBox x0 y0 x1 y1 (quadrantOf x0 y0 x1 y1 x y)).2.2.1
      (quadBox x0 y0 x1 y1 (quadrantOf x0 y0 x1 y1 x y)).2.2.2)
    (by rw [getSlot_nulls])]
  rw [show createQTNode (quadBox x0 y0 x1 y1 (quadrantOf x0 y0 x1 y1 x y)).1
      (quadBox x0 y0 x1 y1 (quadrantOf x0 y0 x1 y1 x y)).2.1
      (quadBox x0 y0 x1 y1 (quadrantOf x0 y0 x1 y1 x y)).2.2.1
      (quadBox x0 y0 x1 y1 (quadrantOf x0 y0 x1 y1 x y)).2.2.2 =
      QT.mk (quadBox x0 y0 x1 y1 (quadrantOf x0 y0 x1 y1 x y)).1
        (quadBox x0 y0 x1 y1 (quadrantOf x0 y0 x1 y1 x y)).2.1
        (quadBox x0 y0 x1 y1 (quadrantOf x0 y0 x1 y1 x y)).2.2.1
        (quadBox x0 y0 x1 y1 (quadrantOf x0 y0 x1 y1 x y)).2.2.2
        0 0 0 (-1) QChildren.nullC from rfl]
  rw [qtInsert_zero_mass_of (g + 1) g rfl]

/-- Inserting into a one-body leaf when the new point routes to a quadrant
different from the stored body's: fuel `g + 3` always suffices. -/
theorem qtInsert_leaf_diff (x0 y0 x1 y1 cx cy x y : ℚ) (bd idx : ℤ)
    (g : ℕ)
    (hne : quadrantOf x0 y0 x1 y1 x y ≠ quadrantOf x0 y0 x1 y1 cx cy) :
    ∃ t', qtInsert (g + 3) (.mk x0 y0 x1 y1 cx cy 1 bd .nullC) idx x y =
      some t' := by
  have hq4n := quadrantOf_lt_four x0 y0 x1 y1 x y
  have hq4o := quadrantOf_lt_four x0 y0 x1 y1 cx cy
  rw [qtInsert_leaf_unfold_of (g + 3) (g + 2) (by omega) x0 y0 x1 y1
    cx cy 1 bd idx x y one_ne_zero]
  rw [qtInsert_into_nulls (g + 2) (by omega) x0 y0 x1 y1 cx cy 1 (-1)
    bd cx cy one_ne_zero]
  rw [Option.some_bind]
  rw [contStep_eq (g + 2) x0 y0 x1 y1 ((cx * 1 + cx) / (1 + 1))
    ((cy * 1 + cy) / (1 + 1)) (1 + 1) (-1)
    (setSlot (.quad .nullS .nullS .nullS .nullS)
      (quadrantOf x0 y0 x1 y1 cx cy)
      (.node (.mk (quadBox x0 y0 x1 y1 (quadrantOf x0 y0 x1 y1 cx cy)).1
        (quadBox x0 y0 x1 y1 (quadrantOf x0 y0 x1 y1 cx cy)).2.1
        (quadBox x0 y0 x1 y1 (quadrantOf x0 y0 x1 y1 cx cy)).2.2.1
        (quadBox x0 y0 x1 y1 (quadrantOf x0 y0 x1 y1 cx cy)).2.2.2
        cx cy 1 bd .nullC)))
    idx x y (quadrantOf x0 y0 x1 y1 x y) rfl
    (createQTNode (quadBox x0 y0 x1 y1 (quadrantOf x0 y0 x1 y1 x y)).1
      (quadBox x0 y0 x1 y1 (quadrantOf x0 y0 x1 y1 x y)).2.1
      (quadBox x0 y0 x1 y1 (quadrantOf x0 y0 x1 y1 x y)).2.2.1
      (quadBox x0 y0 x1 y1 (quadrantOf x0 y0 x1 y1 x y)).2.2.2)
    (by rw [getSlot_setSlot_ne _ _ _ _ _ _ _ hq4o hq4n hne,
      getSlot_nulls])]
  rw [show createQTNode (quadBox x0 y0 x1 y1 (quadrantOf x0 y0 x1 y1 x y)).1
      (quadBox x0 y0 x1 y1 (quadrantOf x0 y0 x1 y1 x y)).2.1
      (quadBox x0 y0 x1 y1 (quadrantOf x0 y0 x1 y1 x y)).2.2.1
      (quadBox x0 y0 x1 y1 (quadrantOf x0 y0 x1 y1 x y)).2.2.2 =
      QT.mk (quadBox x0 y0 x1 y1 (quadrantOf x0 y0 x1 y1 x y)).1
        (quadBox x0 y0 x1 y1 (quadrantOf x0 y0 x1 y1 x y)).2.1
        (quadBox x0 y0 x1 y1 (quadrantOf x0 y0 x1 y1 x y)).2.2.1
        (quadBox x0 y0 x1 y1 (quadrantOf x0 y0 x1 y1 x y)).2.2.2
        0 0 0 (-1) QChildren.nullC from rfl]
  rw [qtInsert_zero_mass_of (g + 2) (g + 1) rfl]
  exact ⟨_, rfl⟩

/-- The quadrant cascade terminates: inserting a point into a one-body
leaf succeeds once the fuel covers the number of box-halvings needed to
separate the two points. -/
theorem qtInsert_leaf_succeeds : ∀ (K : ℕ) (x0 y0 x1 y1 cx cy x y : ℚ)
    (bd idx : ℤ),
    x0 < x1 → y0 < y1 → x0 ≤ cx → cx ≤ x1 → y0 ≤ cy → cy ≤ y1 →
    x0 ≤ x → x ≤ x1 → y0 ≤ y → y ≤ y1 →
    (x1 - x0 < 2 * |x - cx| * 2 ^ K ∨ y1 - y0 < 2 * |y - cy| * 2 ^ K) →
    ∃ t', qtInsert (K + 3) (.mk x0 y0 x1 y1 cx cy 1 bd .nullC) idx x y =
      some t' := by
  intro K
  induction K with
  | zero =>
      intro x0 y0 x1 y1 cx cy x y bd idx hx hy hcx0 hcx1 hcy0 hcy1
        hx0 hx1 hy0 hy1 hC
      refine qtInsert_leaf_diff x0 y0 x1 y1 cx cy x y bd idx 0 ?_
      intro hEq
      obtain ⟨ha, hb2⟩ := same_quadrant_close x0 y0 x1 y1 x y cx cy
        hx0 hx1 hy0 hy1 hcx0 hcx1 hcy0 hcy1 hEq
      rcases hC with hC | hC
      · rw [pow_zero, mul_one] at hC
        linarith
      · rw [pow_zero, mul_one] at hC
        linarith
  | succ K ihK =>
      intro x0 y0 x1 y1 cx cy x y bd idx hx hy hcx0 hcx1 hcy0 hcy1
        hx0 hx1 hy0 hy1 hC
      by_cases hne :
          quadrantOf x0 y0 x1 y1 x y = quadrantOf x0 y0 x1 y1 cx cy
      · -- same quadrant: one subdivision, then recurse in the half box
        have hq4o := quadrantOf_lt_four x0 y0 x1 y1 cx cy
        rw [qtInsert_leaf_unfold_of (K + 1 + 3) (K + 3) (by omega)
          x0 y0 x1 y1 cx cy 1 bd idx x y one_ne_zero]
        rw [qtInsert_into_nulls (K + 3) (by omega) x0 y0 x1 y1 cx cy 1
          (-1) bd cx cy one_ne_zero]
        rw [Option.some_bind]
        rw [contStep_eq (K + 3) x0 y0 x1 y1 ((cx * 1 + cx) / (1 + 1))
          ((cy * 1 + cy) / (1 + 1)) (1 + 1) (-1)
          (setSlot (.quad .nullS .nullS .nullS .nullS)
            (quadrantOf x0 y0 x1 y1 cx cy)
            (.node (.mk
              (quadBox x0 y0 x1 y1 (quadrantOf x0 y0 x1 y1 cx cy)).1
              (quadBox x0 y0 x1 y1 (quadrantOf x0 y0 x1 y1 cx cy)).2.1
              (quadBox x0 y0 x1 y1 (quadrantOf x0 y0 x1 y1 cx cy)).2.2.1
              (quadBox x0 y0 x1 y1 (quadrantOf x0 y0 x1 y1 cx cy)).2.2.2
              cx cy 1 bd .nullC)))
          idx x y (quadrantOf x0 y0 x1 y1 x y) rfl
          (.mk (quadBox x0 y0 x1 y1 (quadrantOf x0 y0 x1 y1 cx cy)).1
            (quadBox x0 y0 x1 y1 (quadrantOf x0 y0 x1 y1 cx cy)).2.1
            (quadBox x0 y0 x1 y1 (quadrantOf x0 y0 x1 y1 cx cy)).2.2.1
            (quadBox x0 y0 x1 y1 (quadrantOf x0 y0 x1 y1 cx cy)).2.2.2
            cx cy 1 bd .nullC)
          (by rw [hne, getSlot_setSlot_self _ _ _ _ _ _ hq4o])]
        -- recurse into the quadrant's box
        have hmemx := quadBox_mem x0 y0 x1 y1 x y hx0 hx1 hy0 hy1
        have hmemc := quadBox_mem x0 y0 x1 y1 cx cy hcx0 hcx1 hcy0 hcy1
        rw [hne] at hmemx
        obtain ⟨hq1, hq2⟩ :=
          quadBox_pos x0 y0 x1 y1 (quadrantOf x0 y0 x1 y1 cx cy) hx hy
        obtain ⟨hh1, hh2⟩ :=
          quadBox_halves x0 y0 x1 y1 (quadrantOf x0 y0 x1 y1 cx cy)
        have hCq :
            (quadBox x0 y0 x1 y1 (quadrantOf x0 y0 x1 y1 cx cy)).2.2.1 -
                (quadBox x0 y0 x1 y1 (quadrantOf x0 y0 x1 y1 cx cy)).1 <
                2 * |x - cx| * 2 ^ K ∨
              (quadBox x0 y0 x1 y1 (quadrantOf x0 y0 x1 y1 cx cy)).2.2.2 -
                (quadBox x0 y0 x1 y1 (quadrantOf x0 y0 x1 y1 cx cy)).2.1 <
                2 * |y - cy| * 2 ^ K := by
          rcases hC with hC | hC
          · refine Or.inl ?_
            have h2 : (2 : ℚ) ^ (K + 1) = 2 * 2 ^ K := by
              rw [pow_succ]
              ring
            rw [h2] at hC
            rw [hh1]
            linarith
          · refine Or.inr ?_
            have h2 : (2 : ℚ) ^ (K + 1) = 2 * 2 ^ K := by
              rw [pow_succ]
              ring
            rw [h2] at hC
            rw [hh2]
            linarith
        obtain ⟨t'', ht''⟩ := ihK
          (quadBox x0 y0 x1 y1 (quadrantOf x0 y0 x1 y1 cx cy)).1
          (quadBox x0 y0 x1 y1 (quadrantOf x0 y0 x1 y1 cx cy)).2.1
          (quadBox x0 y0 x1 y1 (quadrantOf x0 y0 x1 y1 cx cy)).2.2.1
          (quadBox x0 y0 x1 y1 (quadrantOf x0 y0 x1 y1 cx cy)).2.2.2
          cx cy x y bd idx hq1 hq2 hmemc.1 hmemc.2.1 hmemc.2.2.1
          hmemc.2.2.2 hmemx.1 hmemx.2.1 hmemx.2.2.1 hmemx.2.2.2 hCq
        rw [ht'']
        exact ⟨_, rfl⟩
      · exact qtInsert_leaf_diff x0 y0 x1 y1 cx cy x y bd idx (K + 1) hne

/-- Inserting a fresh in-box point into any well-formed tree succeeds with
some fuel. -/
theorem qtInsert_succeeds : ∀ (n : ℕ) (t : QT), QT.height t ≤ n →
    ∀ (idx : ℤ) (x y : ℚ), WF t → inBoxQ t x y → (x, y) ∉ QT.plist t →
    ∃ f t', qtInsert f t idx x y = some t' := by
  intro n
  induction n with
  | zero =>
      intro t hht idx x y _ _ _
      exfalso
      cases t with
      | mk a b c d e f2 g h i =>
          simp only [QT.height] at hht
          omega
  | succ n ihn =>
      intro t hht idx x y hwf hin hfr
      cases hwf with
      | empty x0 y0 x1 y1 hx hy =>
          exact ⟨1, _, qtInsert_zero_mass_of 1 0 rfl x0 y0 x1 y1 0 0 (-1)
            idx QChildren.nullC x y⟩
      | leaf x0 y0 x1 y1 cx cy bd hx hy hb hcx0 hcx1 hcy0 hcy1 =>
          obtain ⟨hi1, hi2, hi3, hi4⟩ := hin
          have hne : ¬ (x = cx ∧ y = cy) := by
            rintro ⟨hxe, hye⟩
            apply hfr
            rw [plist_leaf x0 y0 x1 y1 cx cy 1 bd hb]
            subst hxe hye
            exact List.mem_singleton_self _
          by_cases hxc : x = cx
          · have hyc : ¬ y = cy := fun hyc => hne ⟨hxc, hyc⟩
            have hpos : 0 < |y - cy| :=
              abs_pos.mpr (sub_ne_zero.mpr hyc)
            obtain ⟨K, hK⟩ := pow_unbounded_of_one_lt
              ((y1 - y0) / (2 * |y - cy|)) (one_lt_two (α := ℚ))
            have hC : y1 - y0 < 2 * |y - cy| * 2 ^ K := by
              have h2 : 0 < 2 * |y - cy| := by linarith
              have := (div_lt_iff h2).mp hK
              calc y1 - y0 < 2 ^ K * (2 * |y - cy|) := this
                _ = 2 * |y - cy| * 2 ^ K := by ring
            obtain ⟨t', ht'⟩ := qtInsert_leaf_succeeds K x0 y0 x1 y1 cx cy
              x y bd idx hx hy hcx0 hcx1 hcy0 hcy1 hi1 hi2 hi3 hi4
              (Or.inr hC)
            exact ⟨K + 3, t', ht'⟩
          · have hpos : 0 < |x - cx| :=
              abs_pos.mpr (sub_ne_zero.mpr hxc)
            obtain ⟨K, hK⟩ := pow_unbounded_of_one_lt
              ((x1 - x0) / (2 * |x - cx|)) (one_lt_two (α := ℚ))
            have hC : x1 - x0 < 2 * |x - cx| * 2 ^ K := by
              have h2 : 0 < 2 * |x - cx| := by linarith
              have := (div_lt_iff h2).mp hK
              calc x1 - x0 < 2 ^ K * (2 * |x - cx|) := this
                _ = 2 * |x - cx| * 2 ^ K := by ring
            obtain ⟨t', ht'⟩ := qtInsert_leaf_succeeds K x0 y0 x1 y1 cx cy
              x y bd idx hx hy hcx0 hcx1 hcy0 hcy1 hi1 hi2 hi3 hi4
              (Or.inl hC)
            exact ⟨K + 3, t', ht'⟩
      | internal x0 y0 x1 y1 cx cy mass c0 c1 c2 c3 hx hy hm h0 h1 h2 h3 =>
          have hm0 : ¬ (mass = 0) := by
            intro hh
            rw [hh] at hm
            norm_num at hm
          have hq4 := quadrantOf_lt_four x0 y0 x1 y1 x y
          obtain ⟨hi1, hi2, hi3, hi4⟩ := hin
          cases hsl : getSlot (.quad c0 c1 c2 c3)
              (quadrantOf x0 y0 x1 y1 x y) with
          | nullS =>
              refine ⟨2, ?_⟩
              rw [qtInsert_internal_unfold_of 2 1 rfl x0 y0 x1 y1 cx cy
                mass (-1) idx c0 c1 c2 c3 x y hm0]
              rw [contStep_eq 1 x0 y0 x1 y1 cx cy mass (-1)
                (.quad c0 c1 c2 c3) idx x y (quadrantOf x0 y0 x1 y1 x y)
                rfl
                (createQTNode
                  (quadBox x0 y0 x1 y1 (quadrantOf x0 y0 x1 y1 x y)).1
                  (quadBox x0 y0 x1 y1 (quadrantOf x0 y0 x1 y1 x y)).2.1
                  (quadBox x0 y0 x1 y1 (quadrantOf x0 y0 x1 y1 x y)).2.2.1
                  (quadBox x0 y0 x1 y1 (quadrantOf x0 y0 x1 y1 x y)).2.2.2)
                (by rw [hsl])]
              rw [show createQTNode
                  (quadBox x0 y0 x1 y1 (quadrantOf x0 y0 x1 y1 x y)).1
                  (quadBox x0 y0 x1 y1 (quadrantOf x0 y0 x1 y1 x y)).2.1
                  (quadBox x0 y0 x1 y1 (quadrantOf x0 y0 x1 y1 x y)).2.2.1
                  (quadBox x0 y0 x1 y1
                    (quadrantOf x0 y0 x1 y1 x y)).2.2.2 =
                  QT.mk
                    (quadBox x0 y0 x1 y1 (quadrantOf x0 y0 x1 y1 x y)).1
                    (quadBox x0 y0 x1 y1 (quadrantOf x0 y0 x1 y1 x y)).2.1
                    (quadBox x0 y0 x1 y1
                      (quadrantOf x0 y0 x1 y1 x y)).2.2.1
                    (quadBox x0 y0 x1 y1
                      (quadrantOf x0 y0 x1 y1 x y)).2.2.2
                    0 0 0 (-1) QChildren.nullC from rfl]
              rw [qtInsert_zero_mass_of 1 0 rfl]
              exact ⟨_, rfl⟩
          | node c =>
              have hcslot := WF_internal_getSlot x0 y0 x1 y1 cx cy mass
                (-1) c0 c1 c2 c3 (quadrantOf x0 y0 x1 y1 x y) hq4
                (WF.internal _ _ _ _ _ _ _ _ _ _ _ hx hy hm h0 h1 h2 h3)
              rw [hsl] at hcslot
              cases hcslot with
              | node _ _ _ _ _ _ hcwf hcm hb1 hb2 hb3 hb4 =>
                  have hmem := quadBox_mem x0 y0 x1 y1 x y hi1 hi2 hi3 hi4
                  have hcin : inBoxQ c x y := by
                    refine ⟨?_, ?_, ?_, ?_⟩
                    · rw [hb1]; exact hmem.1
                    · rw [hb3]; exact hmem.2.1
                    · rw [hb2]; exact hmem.2.2.1
                    · rw [hb4]; exact hmem.2.2.2
                  have hcfr : (x, y) ∉ QT.plist c := by
                    intro hp
                    apply hfr
                    rw [plist_nonleaf, mem_plist_quad_iff]
                    refine ⟨quadrantOf x0 y0 x1 y1 x y, hq4, ?_⟩
                    rw [hsl]
                    exact hp
                  have hch : QT.height c ≤ n := by
                    have := height_child_lt x0 y0 x1 y1 cx cy mass (-1)
                      c0 c1 c2 c3 (quadrantOf x0 y0 x1 y1 x y) c hsl
                    omega
                  obtain ⟨g, cres, hg⟩ := ihn c hch idx x y hcwf hcin hcfr
                  refine ⟨g + 1, ?_⟩
                  rw [qtInsert_internal_unfold_of (g + 1) g rfl x0 y0 x1
                    y1 cx cy mass (-1) idx c0 c1 c2 c3 x y hm0]
                  rw [contStep_eq g x0 y0 x1 y1 cx cy mass (-1)
                    (.quad c0 c1 c2 c3) idx x y
                    (quadrantOf x0 y0 x1 y1 x y) rfl c (by rw [hsl])]
                  rw [hg]
                  exact ⟨_, rfl⟩

/-! #### The whole per-step tree build -/

/-- One step of the tree-build fold of `applyRepulsionBarnesHut`. -/
def qtStep (fuel : ℕ) (acc : Option QT) (p : ℕ × ℚ × ℚ) : Option QT :=
  match acc with
  | none => none
  | some t => qtInsert fuel t (p.1 : ℤ) p.2.1 p.2.2

theorem qtBuild_eq_fold (fuel : ℕ) (root : QT) (bodies : List (ℚ × ℚ)) :
    qtBuild fuel root bodies = (bodies.enum).foldl (qtStep fuel) (some root) :=
  rfl

theorem qtFold_none (fuel : ℕ) : ∀ (l : List (ℕ × ℚ × ℚ)),
    l.foldl (qtStep fuel) none = none := by
  intro l
  induction l with
  | nil => rfl
  | cons a l ihl =>
      rw [List.foldl_cons]
      exact ihl

theorem qtFold_mono (f f' : ℕ) (hff : f ≤ f') :
    ∀ (l : List (ℕ × ℚ × ℚ)) (t t2 : QT),
      l.foldl (qtStep f) (some t) = some t2 →
      l.foldl (qtStep f') (some t) = some t2 := by
  intro l
  induction l with
  | nil =>
      intro t t2 h
      exact h
  | cons a l ihl =>
      intro t t2 h
      rw [List.foldl_cons] at h ⊢
      cases hstep : qtInsert f t (a.1 : ℤ) a.2.1 a.2.2 with
      | none =>
          rw [show qtStep f (some t) a =
            qtInsert f t (a.1 : ℤ) a.2.1 a.2.2 from rfl, hstep,
            qtFold_none f l] at h
          cases h
      | some t1 =>
          rw [show qtStep f (some t) a =
            qtInsert f t (a.1 : ℤ) a.2.1 a.2.2 from rfl, hstep] at h
          rw [show qtStep f' (some t) a =
            qtInsert f' t (a.1 : ℤ) a.2.1 a.2.2 from rfl,
            qtInsert_mono f f' hff t (a.1 : ℤ) a.2.1 a.2.2 t1 hstep]
          exact ihl t1 t2 h

/-- Folding `qtInsert` over bodies with pairwise-distinct positions that
lie in the (well-formed) root's box succeeds with some fuel. -/
theorem qtFold_succeeds : ∀ (l : List (ℕ × ℚ × ℚ)) (t : QT), WF t →
    (∀ pr ∈ l, inBoxQ t pr.2.1 pr.2.2) →
    (l.map (fun pr => (pr.2.1, pr.2.2))).Nodup →
    (∀ pr ∈ l, (pr.2.1, pr.2.2) ∉ QT.plist t) →
    ∃ fuel t2, l.foldl (qtStep fuel) (some t) = some t2 := by
  intro l
  induction l with
  | nil =>
      intro t _ _ _ _
      exact ⟨0, t, rfl⟩
  | cons a l ihl =>
      intro t hwf hbox hnd hfr
      rw [List.map_cons, List.nodup_cons] at hnd
      obtain ⟨f1, t1, h1⟩ := qtInsert_succeeds (QT.height t) t le_rfl
        (a.1 : ℤ) a.2.1 a.2.2 hwf (hbox a (List.mem_cons_self a l))
        (hfr a (List.mem_cons_self a l))
      obtain ⟨hwf1, he0, he1, he2, he3, -, hpl, -⟩ :=
        qtInsert_preserves f1 t t1 (a.1 : ℤ) a.2.1 a.2.2 h1 hwf
          (hbox a (List.mem_cons_self a l)) (Int.natCast_nonneg a.1)
      have hbox1 : ∀ pr ∈ l, inBoxQ t1 pr.2.1 pr.2.2 := by
        intro pr hpr
        obtain ⟨b1, b2, b3, b4⟩ := hbox pr (List.mem_cons_of_mem a hpr)
        refine ⟨?_, ?_, ?_, ?_⟩
        · rw [he0]; exact b1
        · rw [he2]; exact b2
        · rw [he1]; exact b3
        · rw [he3]; exact b4
      have hfr1 : ∀ pr ∈ l, (pr.2.1, pr.2.2) ∉ QT.plist t1 := by
        intro pr hpr hmem2
        rw [hpl (pr.2.1, pr.2.2)] at hmem2
        rcases hmem2 with hmem2 | hmem2
        · exact hfr pr (List.mem_cons_of_mem a hpr) hmem2
        · have hmm : (pr.2.1, pr.2.2) ∈
              l.map (fun pr => (pr.2.1, pr.2.2)) :=
            List.mem_map_of_mem _ hpr
          rw [hmem2] at hmm
          exact hnd.1 hmm
      obtain ⟨f2, t2, h2⟩ := ihl t1 hwf1 hbox1 hnd.2 hfr1
      refine ⟨max f1 f2, t2, ?_⟩
      rw [List.foldl_cons]
      rw [show qtStep (max f1 f2) (some t) a =
        qtInsert (max f1 f2) t (a.1 : ℤ) a.2.1 a.2.2 from rfl]
      rw [qtInsert_mono f1 (max f1 f2) (le_max_left _ _) t (a.1 : ℤ)
        a.2.1 a.2.2 t1 h1]
      exact qtFold_mono f2 (max f1 f2) (le_max_right _ _) l t1 t2 h2

/-! #### The bounding box computed by `applyRepulsionBarnesHut` -/

theorem boundsMin_le (f : SimNode → ℚ) (l : List SimNode) (m : ℚ)
    (h : boundsMin f l = some m) : ∀ p ∈ l, m ≤ f p := by
  suffices hgen : ∀ (l2 : List SimNode) (acc : Option ℚ) (m : ℚ),
      l2.foldl (fun acc q => match acc with
        | none => some (f q)
        | some mm => some (if f q < mm then f q else mm)) acc = some m →
      (∀ p ∈ l2, m ≤ f p) ∧ ∀ m0, acc = some m0 → m ≤ m0 by
    exact (hgen l none m h).1
  intro l2
  induction l2 with
  | nil =>
      intro acc m hm
      rw [List.foldl_nil] at hm
      constructor
      · intro p hp
        cases hp
      · intro m0 h0
        rw [h0] at hm
        exact le_of_eq (Option.some.inj hm).symm
  | cons q l2 ih =>
      intro acc m hm
      rw [List.foldl_cons] at hm
      obtain ⟨h1, h2⟩ := ih _ m hm
      constructor
      · intro p hp
        rcases List.mem_cons.mp hp with rfl | hp
        · cases acc with
          | none => exact h2 (f p) rfl
          | some m1 =>
              have h3 := h2 (if f p < m1 then f p else m1) rfl
              by_cases hlt : f p < m1
              · rw [if_pos hlt] at h3
                exact h3
              · rw [if_neg hlt] at h3
                push_neg at hlt
                linarith
        · exact h1 p hp
      · intro m0 h0
        cases acc with
        | none => cases h0
        | some m1 =>
            have h3 := h2 (if f q < m1 then f q else m1) rfl
            replace h0 := Option.some.inj h0
            subst h0
            by_cases hlt : f q < m1
            · rw [if_pos hlt] at h3
              linarith
            · rw [if_neg hlt] at h3
              exact h3

theorem boundsMax_ge (f : SimNode → ℚ) (l : List SimNode) (m : ℚ)
    (h : boundsMax f l = some m) : ∀ p ∈ l, f p ≤ m := by
  suffices hgen : ∀ (l2 : List SimNode) (acc : Option ℚ) (m : ℚ),
      l2.foldl (fun acc q => match acc with
        | none => some (f q)
        | some mm => some (if f q > mm then f q else mm)) acc = some m →
      (∀ p ∈ l2, f p ≤ m) ∧ ∀ m0, acc = some m0 → m0 ≤ m by
    exact (hgen l none m h).1
  intro l2
  induction l2 with
  | nil =>
      intro acc m hm
      rw [List.foldl_nil] at hm
      constructor
      · intro p hp
        cases hp
      · intro m0 h0
        rw [h0] at hm
        exact le_of_eq (Option.some.inj hm)
  | cons q l2 ih =>
      intro acc m hm
      rw [List.foldl_cons] at hm
      obtain ⟨h1, h2⟩ := ih _ m hm
      constructor
      · intro p hp
        rcases List.mem_cons.mp hp with rfl | hp
        · cases acc with
          | none => exact h2 (f p) rfl
          | some m1 =>
              have h3 := h2 (if f p > m1 then f p else m1) rfl
              by_cases hlt : f p > m1
              · rw [if_pos hlt] at h3
                exact h3
              · rw [if_neg hlt] at h3
                push_neg at hlt
                linarith
        · exact h1 p hp
      · intro m0 h0
        cases acc with
        | none => cases h0
        | some m1 =>
            have h3 := h2 (if f q > m1 then f q else m1) rfl
            replace h0 := Option.some.inj h0
            subst h0
            by_cases hlt : f q > m1
            · rw [if_pos hlt] at h3
              linarith
            · rw [if_neg hlt] at h3
              exact h3

theorem boundsMin_cons_some (f : SimNode → ℚ) (p : SimNode)
    (l : List SimNode) : ∃ m, boundsMin f (p :: l) = some m := by
  suffices hgen : ∀ (l2 : List SimNode) (m0 : ℚ), ∃ m,
      l2.foldl (fun acc q => match acc with
        | none => some (f q)
        | some mm => some (if f q < mm then f q else mm)) (some m0) =
        some m by
    obtain ⟨m, hm⟩ := hgen l (f p)
    exact ⟨m, hm⟩
  intro l2
  induction l2 with
  | nil => intro m0; exact ⟨m0, rfl⟩
  | cons q l2 ih =>
      intro m0
      obtain ⟨m, hm⟩ := ih (if f q < m0 then f q else m0)
      exact ⟨m, hm⟩

theorem boundsMax_cons_some (f : SimNode → ℚ) (p : SimNode)
    (l : List SimNode) : ∃ m, boundsMax f (p :: l) = some m := by
  suffices hgen : ∀ (l2 : List SimNode) (m0 : ℚ), ∃ m,
      l2.foldl (fun acc q => match acc with
        | none => some (f q)
        | some mm => some (if f q > mm then f q else mm)) (some m0) =
        some m by
    obtain ⟨m, hm⟩ := hgen l (f p)
    exact ⟨m, hm⟩
  intro l2
  induction l2 with
  | nil => intro m0; exact ⟨m0, rfl⟩
  | cons q l2 ih =>
      intro m0
      obtain ⟨m, hm⟩ := ih (if f q > m0 then f q else m0)
      exact ⟨m, hm⟩

/-- Claim C10: the implicit precondition of the Barnes-Hut tree build.
For every node state whose positions are pairwise distinct, the per-step
quadtree build — inserting every body with `qtInsert` into the padded
bounding box — terminates: some recursion budget makes
`applyRepulsionBarnesHut` succeed (`qtInsert` itself places no bound on
its recursion depth, so distinctness is the condition making the
recursion well-founded). -/
theorem claim_C10_barnesHutBuild_terminates (st : List SimNode)
    (repulsion alpha theta : ℚ)
    (hdist : (st.map (fun p => (p.x, p.y))).Nodup) :
    ∃ fuel r, applyRepulsionBarnesHut fuel repulsion alpha theta st =
      some r := by
  cases st with
  | nil => exact ⟨0, [], rfl⟩
  | cons p0 rest =>
      obtain ⟨minX, hminX⟩ := boundsMin_cons_some SimNode.x p0 rest
      obtain ⟨minY, hminY⟩ := boundsMin_cons_some SimNode.y p0 rest
      obtain ⟨maxX, hmaxX⟩ := boundsMax_cons_some SimNode.x p0 rest
      obtain ⟨maxY, hmaxY⟩ := boundsMax_cons_some SimNode.y p0 rest
      have hminXle := boundsMin_le SimNode.x (p0 :: rest) minX hminX
      have hminYle := boundsMin_le SimNode.y (p0 :: rest) minY hminY
      have hmaxXge := boundsMax_ge SimNode.x (p0 :: rest) maxX hmaxX
      have hmaxYge := boundsMax_ge SimNode.y (p0 :: rest) maxY hmaxY
      have hp0 := List.mem_cons_self p0 rest
      have hbx : minX - 1 < maxX + 1 := by
        have h1 := hminXle p0 hp0
        have h2 := hmaxXge p0 hp0
        linarith
      have hby : minY - 1 < maxY + 1 := by
        have h1 := hminYle p0 hp0
        have h2 := hmaxYge p0 hp0
        linarith
      have hwfroot : WF (createQTNode (minX - 1) (minY - 1) (maxX + 1)
          (maxY + 1)) :=
        WF.empty _ _ _ _ hbx hby
      have hnd2 : (((p0 :: rest).map (fun p => (p.x, p.y))).enum.map
          (fun pr => (pr.2.1, pr.2.2))).Nodup := by
        have he : ((p0 :: rest).map (fun p => (p.x, p.y))).enum.map
            (fun pr => (pr.2.1, pr.2.2)) =
            ((p0 :: rest).map (fun p => (p.x, p.y))).enum.map Prod.snd :=
          rfl
        rw [he, List.enum_map_snd]
        exact hdist
      obtain ⟨fuel, tree, htree⟩ := qtFold_succeeds
        ((p0 :: rest).map (fun p => (p.x, p.y))).enum
        (createQTNode (minX - 1) (minY - 1) (maxX + 1) (maxY + 1))
        hwfroot
        (by
          intro pr hpr
          have hsnd : pr.2 ∈ (p0 :: rest).map (fun p => (p.x, p.y)) :=
            List.snd_mem_of_mem_enum hpr
          obtain ⟨p, hpmem, hpe⟩ := List.mem_map.mp hsnd
          have hx1 : pr.2.1 = p.x := by rw [← hpe]
          have hy1 : pr.2.2 = p.y := by rw [← hpe]
          rw [hx1, hy1]
          refine ⟨?_, ?_, ?_, ?_⟩
          · show minX - 1 ≤ p.x
            have := hminXle p hpmem
            linarith
          · show p.x ≤ maxX + 1
            have := hmaxXge p hpmem
            linarith
          · show minY - 1 ≤ p.y
            have := hminYle p hpmem
            linarith
          · show p.y ≤ maxY + 1
            have := hmaxYge p hpmem
            linarith)
        hnd2
        (by
          intro pr _ hmem
          rw [plist_createQTNode] at hmem
          exact absurd hmem (List.not_mem_nil _))
      refine ⟨fuel, ?_⟩
      simp only [applyRepulsionBarnesHut, hminX, hminY, hmaxX, hmaxY]
      rw [qtBuild_eq_fold, htree]
      exact ⟨_, rfl⟩

/-- Witness for C10 at a concrete two-node state with distinct positions:
the padded-box tree build terminates and the Barnes-Hut pass succeeds. -/
theorem claim_C10_witness :
    (([⟨0, 0, 0, 0⟩, ⟨2, 3, 0, 0⟩] : List SimNode).map
        (fun p => (p.x, p.y))).Nodup ∧
      ∃ fuel r, applyRepulsionBarnesHut fuel 1 1 (1 / 2)
        [⟨0, 0, 0, 0⟩, ⟨2, 3, 0, 0⟩] = some r :=
  ⟨by with_unfolding_all decide,
    claim_C10_barnesHutBuild_terminates [⟨0, 0, 0, 0⟩, ⟨2, 3, 0, 0⟩]
      1 1 (1 / 2) (by with_unfolding_all decide)⟩

end NetworkGraph
